import Mathlib

/-!
Verification of the SmartMemo client-side search core
(`lib/search/text-normalizer.ts`, `lib/search/fuzzy-search.ts`,
`lib/search/search-engine.ts`).

Strings are modelled as lists of UTF-16 code units (`List Nat`), matching
JavaScript string semantics (`charAt`, `length`, `split('')` all operate on
code units).  JavaScript numbers that carry match scores are modelled as
rationals (`ℚ`); edit distances are naturals, extended with `⊤` for the
`Infinity` sentinel used by `partialMatch`.  `String.prototype.toLowerCase`
and `toUpperCase` are modelled on the character ranges the normalizer
manipulates (ASCII and fullwidth Latin letters); all other code points are
fixed, which agrees with JavaScript on every code point the normalizer's
tables and character classes mention.
-/

/-- A JavaScript string as its list of UTF-16 code units. -/
abbrev Str := List Nat

/-- The JavaScript `\s` character class (also the set trimmed by
`String.prototype.trim`): ASCII whitespace, NBSP, Ogham space mark, the
U+2000 block, line/paragraph separators, narrow/medium spaces, ideographic
space and the BOM. -/
def jsWs (c : Nat) : Bool :=
  c == 0x9 || c == 0xA || c == 0xB || c == 0xC || c == 0xD || c == 0x20 ||
  c == 0xA0 || c == 0x1680 || (0x2000 ≤ c && c ≤ 0x200A) ||
  c == 0x2028 || c == 0x2029 || c == 0x202F || c == 0x205F ||
  c == 0x3000 || c == 0xFEFF

/-- The JavaScript `\w` character class: `[A-Za-z0-9_]`. -/
def jsWordChar (c : Nat) : Bool :=
  (0x30 ≤ c && c ≤ 0x39) || (0x41 ≤ c && c ≤ 0x5A) || c == 0x5F ||
  (0x61 ≤ c && c ≤ 0x7A)

/-- `toLowerCase` on one code unit (ASCII `A-Z` and fullwidth `Ａ-Ｚ`). -/
def lowC (c : Nat) : Nat :=
  if 0x41 ≤ c ∧ c ≤ 0x5A then c + 0x20
  else if 0xFF21 ≤ c ∧ c ≤ 0xFF3A then c + 0x20
  else c

/-- `toUpperCase` on one code unit (ASCII `a-z` and fullwidth `ａ-ｚ`). -/
def uppC (c : Nat) : Nat :=
  if 0x61 ≤ c ∧ c ≤ 0x7A then c - 0x20
  else if 0xFF41 ≤ c ∧ c ≤ 0xFF5A then c - 0x20
  else c

/-- `String.prototype.toLowerCase`. -/
def lowerStr (s : Str) : Str := s.map lowC

/-- `String.prototype.toUpperCase`. -/
def upperStr (s : Str) : Str := s.map uppC

namespace TextNormalizer

/-- `TextNormalizer.HIRAGANA_START` .. `KATAKANA_OFFSET` constants. -/
def HIRAGANA_START : Nat := 0x3041

def HIRAGANA_END : Nat := 0x3096

def KATAKANA_START : Nat := 0x30A1

def KATAKANA_END : Nat := 0x30F6

def KATAKANA_OFFSET : Nat := 0x60

/-- One character of `hiraganaToKatakana`: the regex `[ぁ-ゖ]`
replacement shifting by `KATAKANA_OFFSET`. -/
def h2kC (c : Nat) : Nat :=
  if HIRAGANA_START ≤ c ∧ c ≤ HIRAGANA_END then c + KATAKANA_OFFSET else c

/-- One character of `katakanaToHiragana`: the regex `[ァ-ヶ]`
replacement shifting back by `KATAKANA_OFFSET`. -/
def k2hC (c : Nat) : Nat :=
  if KATAKANA_START ≤ c ∧ c ≤ KATAKANA_END then c - KATAKANA_OFFSET else c

/-- `TextNormalizer.hiraganaToKatakana`. -/
def hiraganaToKatakana (s : Str) : Str := s.map h2kC

/-- `TextNormalizer.katakanaToHiragana`. -/
def katakanaToHiragana (s : Str) : Str := s.map k2hC

/-- `TextNormalizer.FULLWIDTH_CHAR_MAP`, entry for entry in source order:
fullwidth digits, fullwidth uppercase, fullwidth lowercase, then the fixed
punctuation rows. -/
def FULLWIDTH_CHAR_MAP : List (Nat × Nat) :=
  [(0xFF10, 0x30), (0xFF11, 0x31), (0xFF12, 0x32), (0xFF13, 0x33),
   (0xFF14, 0x34), (0xFF15, 0x35), (0xFF16, 0x36), (0xFF17, 0x37),
   (0xFF18, 0x38), (0xFF19, 0x39),
   (0xFF21, 0x41), (0xFF22, 0x42), (0xFF23, 0x43), (0xFF24, 0x44),
   (0xFF25, 0x45), (0xFF26, 0x46), (0xFF27, 0x47), (0xFF28, 0x48),
   (0xFF29, 0x49), (0xFF2A, 0x4A), (0xFF2B, 0x4B), (0xFF2C, 0x4C),
   (0xFF2D, 0x4D), (0xFF2E, 0x4E), (0xFF2F, 0x4F), (0xFF30, 0x50),
   (0xFF31, 0x51), (0xFF32, 0x52), (0xFF33, 0x53), (0xFF34, 0x54),
   (0xFF35, 0x55), (0xFF36, 0x56), (0xFF37, 0x57), (0xFF38, 0x58),
   (0xFF39, 0x59), (0xFF3A, 0x5A),
   (0xFF41, 0x61), (0xFF42, 0x62), (0xFF43, 0x63), (0xFF44, 0x64),
   (0xFF45, 0x65), (0xFF46, 0x66), (0xFF47, 0x67), (0xFF48, 0x68),
   (0xFF49, 0x69), (0xFF4A, 0x6A), (0xFF4B, 0x6B), (0xFF4C, 0x6C),
   (0xFF4D, 0x6D), (0xFF4E, 0x6E), (0xFF4F, 0x6F), (0xFF50, 0x70),
   (0xFF51, 0x71), (0xFF52, 0x72), (0xFF53, 0x73), (0xFF54, 0x74),
   (0xFF55, 0x75), (0xFF56, 0x76), (0xFF57, 0x77), (0xFF58, 0x78),
   (0xFF59, 0x79), (0xFF5A, 0x7A),
   (0xFF01, 0x21), (0xFF1F, 0x3F), (0x3000, 0x20), (0xFF0C, 0x2C),
   (0xFF0E, 0x2E), (0xFF1A, 0x3A), (0xFF1B, 0x3B), (0xFF08, 0x28),
   (0xFF09, 0x29),
   (0x300C, 0x22), (0x300D, 0x22), (0x300E, 0x22), (0x300F, 0x22),
   (0x3010, 0x5B), (0x3011, 0x5D), (0x3008, 0x3C), (0x3009, 0x3E),
   (0xFF5B, 0x7B), (0xFF5D, 0x7D),
   (0xFF0B, 0x2B), (0xFF0D, 0x2D), (0xFF1D, 0x3D), (0xFF0A, 0x2A),
   (0xFF0F, 0x2F), (0xFF3C, 0x5C), (0xFF5C, 0x7C), (0xFF3F, 0x5F),
   (0xFF20, 0x40),
   (0xFF03, 0x23), (0xFF04, 0x24), (0xFF05, 0x25), (0xFF06, 0x26),
   (0xFF3E, 0x5E), (0xFF5E, 0x7E), (0xFF40, 0x60)]

/-- `TextNormalizer.HALFWIDTH_CHAR_MAP`: the inverted table.  JavaScript
`Object.fromEntries` keeps the last entry for a duplicated key, so the four
quotation marks collapse onto `0x22 ↦ 0x300F`. -/
def HALFWIDTH_CHAR_MAP : List (Nat × Nat) :=
  ((FULLWIDTH_CHAR_MAP.map (fun p => (p.2, p.1))).reverse).foldl
    (fun acc p => if (acc.lookup p.1).isSome then acc else acc ++ [p]) []

/-- One character of `fullwidthToHalfwidth`: map lookup, identity when the
character is not in the table (`FULLWIDTH_CHAR_MAP[char] || char`). -/
def f2hC (c : Nat) : Nat := (FULLWIDTH_CHAR_MAP.lookup c).getD c

/-- One character of `halfwidthToFullwidth`. -/
def h2fC (c : Nat) : Nat := (HALFWIDTH_CHAR_MAP.lookup c).getD c

/-- `TextNormalizer.fullwidthToHalfwidth`. -/
def fullwidthToHalfwidth (s : Str) : Str := s.map f2hC

/-- `TextNormalizer.halfwidthToFullwidth`. -/
def halfwidthToFullwidth (s : Str) : Str := s.map h2fC

/-- The character class kept by `removeSymbols`:
`[\w\s぀-ゟ゠-ヿ一-龯]`. -/
def keepC (c : Nat) : Bool :=
  jsWordChar c || jsWs c || (0x3040 ≤ c && c ≤ 0x309F) ||
  (0x30A0 ≤ c && c ≤ 0x30FF) || (0x4E00 ≤ c && c ≤ 0x9FAF)

/-- One character of `removeSymbols`: a character outside the keep class is
replaced by a single space. -/
def rsC (c : Nat) : Nat := if keepC c then c else 0x20

/-- `TextNormalizer.removeSymbols`. -/
def removeSymbols (s : Str) : Str := s.map rsC

/-- `KanaNormalizationOptions` (absent flags are falsy). -/
structure KanaNormalizationOptions where
  hiraganaToKatakana : Bool := false
  katakanaToHiragana : Bool := false
  unifyKana : Bool := false
deriving DecidableEq

/-- `WidthNormalizationOptions`. -/
structure WidthNormalizationOptions where
  fullwidthToHalfwidth : Bool := false
  halfwidthToFullwidth : Bool := false
  unifyWidth : Bool := false
deriving DecidableEq

/-- `CaseNormalizationOptions` (`ignoreCase` exists but is never read by
`normalizeCase`). -/
structure CaseNormalizationOptions where
  toLowerCase : Bool := false
  toUpperCase : Bool := false
  ignoreCase : Bool := false
deriving DecidableEq

/-- `SymbolNormalizationOptions` (`removeSpaces` exists but is never read). -/
structure SymbolNormalizationOptions where
  removeSymbols : Bool := false
  normalizeSymbols : Bool := false
  removeSpaces : Bool := false
deriving DecidableEq

/-- `TextNormalizationOptions`: each sub-record is optional and its presence
is tested truthily by `normalize`. -/
structure TextNormalizationOptions where
  kana : Option KanaNormalizationOptions := none
  width : Option WidthNormalizationOptions := none
  case : Option CaseNormalizationOptions := none
  symbols : Option SymbolNormalizationOptions := none
deriving DecidableEq

/-- `TextNormalizer.normalizeKana`. -/
def normalizeKana (t : Str) (o : KanaNormalizationOptions) : Str :=
  let r := t
  let r := if o.hiraganaToKatakana then hiraganaToKatakana r else r
  let r := if o.katakanaToHiragana then katakanaToHiragana r else r
  let r := if o.unifyKana then katakanaToHiragana r else r
  r

/-- `TextNormalizer.normalizeWidth`. -/
def normalizeWidth (t : Str) (o : WidthNormalizationOptions) : Str :=
  let r := t
  let r := if o.fullwidthToHalfwidth then fullwidthToHalfwidth r else r
  let r := if o.halfwidthToFullwidth then halfwidthToFullwidth r else r
  let r := if o.unifyWidth then fullwidthToHalfwidth r else r
  r

/-- `TextNormalizer.normalizeCase`. -/
def normalizeCase (t : Str) (o : CaseNormalizationOptions) : Str :=
  let r := t
  let r := if o.toLowerCase then lowerStr r else r
  let r := if o.toUpperCase then upperStr r else r
  r

/-- `TextNormalizer.normalizeSymbols(text, options)`.  The source declares
`normalizeSymbols` twice; the two-argument declaration shadows the
one-argument punctuation-folding one, so its inner call
`TextNormalizer.normalizeSymbols(result)` resolves to this very method with
an empty options object and is therefore the identity. -/
def normalizeSymbolsOpt (t : Str) (o : SymbolNormalizationOptions) : Str :=
  let r := t
  let r := if o.normalizeSymbols then r else r
  let r := if o.removeSymbols then removeSymbols r else r
  r

/-- Collapse every run of `\s` characters to one ASCII space:
`result.replace(/\s+/g, ' ')`.  The flag records whether the previous
character belonged to a whitespace run already replaced. -/
def cw (prev : Bool) : Str → Str
  | [] => []
  | c :: r =>
      if jsWs c then
        if prev then cw true r else 0x20 :: cw true r
      else c :: cw false r

/-- Left part of `String.prototype.trim`. -/
def trimL (s : Str) : Str := s.dropWhile jsWs

/-- Right part of `String.prototype.trim`. -/
def trimR : Str → Str
  | [] => []
  | c :: r =>
      match trimR r with
      | [] => if jsWs c then [] else [c]
      | r' => c :: r'

/-- `String.prototype.trim`. -/
def jsTrim (s : Str) : Str := trimR (trimL s)

/-- Step 5 of `normalize`: `result.replace(/\s+/g, ' ').trim()`. -/
def collapseTrim (s : Str) : Str := jsTrim (cw false s)

/-- `TextNormalizer.normalize`: case, then width, then kana, then symbols,
then whitespace collapse and trim. -/
def normalize (t : Str) (o : TextNormalizationOptions) : Str :=
  let r := t
  let r := match o.case with
    | some co => normalizeCase r co
    | none => r
  let r := match o.width with
    | some wo => normalizeWidth r wo
    | none => r
  let r := match o.kana with
    | some ko => normalizeKana r ko
    | none => r
  let r := match o.symbols with
    | some so => normalizeSymbolsOpt r so
    | none => r
  collapseTrim r

/-- `TextNormalizer.normalizeForSearch`: lowercase, unify width, unify kana,
remove symbols. -/
def normalizeForSearch (t : Str) : Str :=
  normalize t
    { case := some { toLowerCase := true }
      width := some { unifyWidth := true }
      kana := some { unifyKana := true }
      symbols := some { removeSymbols := true } }

/-- `TextNormalizer.normalizeForPartialMatch`: like `normalizeForSearch` but
with `removeSymbols: false`. -/
def normalizeForPartialMatch (t : Str) : Str :=
  normalize t
    { case := some { toLowerCase := true }
      width := some { unifyWidth := true }
      kana := some { unifyKana := true }
      symbols := some { removeSymbols := false } }

end TextNormalizer

/-! ## Idempotence of `normalizeForSearch` (C6) -/

/-- Characters that can survive `normalizeForSearch` besides the plain
space: lowercase ASCII word characters, the Hiragana block, the Katakana
code points outside the shifted range U+30A1–U+30F6, and CJK ideographs.
All of them are fixed by case folding, width folding, kana unification and
symbol removal. -/
def CleanChar (c : Nat) : Prop :=
  (0x30 ≤ c ∧ c ≤ 0x39) ∨ c = 0x5F ∨ (0x61 ≤ c ∧ c ≤ 0x7A) ∨
  (0x3040 ≤ c ∧ c ≤ 0x309F) ∨ c = 0x30A0 ∨ (0x30F7 ≤ c ∧ c ≤ 0x30FF) ∨
  (0x4E00 ≤ c ∧ c ≤ 0x9FAF)

instance : DecidablePred CleanChar := fun c => by
  unfold CleanChar; infer_instance

namespace TextNormalizer

/-- A string whose internal whitespace is exactly single ASCII spaces each
followed by a non-space character (leading whitespace is not constrained
here; see `okStr`). -/
def okW : Str → Bool
  | [] => true
  | c :: r =>
      if jsWs c then
        c == 0x20 &&
          (match r with
           | [] => false
           | d :: r' => !jsWs d && okW r')
      else okW r

/-- The head is not whitespace (vacuously true for the empty string). -/
def headNonWs : Str → Bool
  | [] => true
  | c :: _ => !jsWs c

/-- The last character is not whitespace (vacuously true when empty). -/
def noTrailB : Str → Bool
  | [] => true
  | [c] => !jsWs c
  | _ :: c :: r => noTrailB (c :: r)

/-- All whitespace is the ASCII space and no two whitespace characters are
adjacent. -/
def spaced : Str → Bool
  | [] => true
  | [c] => !jsWs c || c == 0x20
  | c :: d :: r => (!jsWs c || (c == 0x20 && !jsWs d)) && spaced (d :: r)

end TextNormalizer

/-! ## FuzzySearch -/

/-- JS `String.prototype.includes`: substring containment (true for the
empty search string). -/
def strIncludes (s sub : Str) : Bool := decide (sub <:+: s)

/-- JS `split(/\s+/)`: pieces between maximal whitespace runs, including an
empty leading piece when the string starts with whitespace and an empty
trailing piece when it ends with one.  The flag records whether the scanner
is inside a separator run; `cur` is the current piece, reversed. -/
def splitWsA : Bool → Str → Str → List Str
  | _, [], cur => [cur.reverse]
  | inWs, c :: r, cur =>
      if jsWs c then
        if inWs then splitWsA true r cur
        else cur.reverse :: splitWsA true r []
      else splitWsA false r (c :: cur)

def splitWs (s : Str) : List Str := splitWsA false s []

/-- Does `pat` occur at offset `p` of `text`? -/
def matchAt (text pat : Str) (p : Nat) : Bool := pat.isPrefixOf (text.drop p)

/-- Scan for the first occurrence of `pat` at offset `≥ p`.  Only called
with a non-empty `pat` by `jsIndexOf`. -/
def scanFrom (text pat : Str) (p : Nat) : Option Nat :=
  if text.length < p + pat.length then none
  else if matchAt text pat p then some p
  else scanFrom text pat (p + 1)
termination_by text.length + 1 - p
decreasing_by
  rename_i h _
  simp at h
  omega

/-- JS `String.prototype.indexOf(pat, start)`, with `none` for `-1`.  An
empty pattern is always found, at `min start (length text)` — the clamping
behaviour responsible for the non-termination recorded in C2. -/
def jsIndexOf (text pat : Str) (start : Nat) : Option Nat :=
  if pat = [] then some (min start text.length) else scanFrom text pat start

namespace FuzzySearch

/-- `FuzzySearchOptions`: all fields optional, defaults applied at each
entry point by destructuring. -/
structure FuzzySearchOptions where
  threshold : Option ℚ := none
  maxDistance : Option Nat := none
  normalizeText : Option Bool := none
  caseSensitive : Option Bool := none
  includeScore : Option Bool := none
deriving DecidableEq

/-- `FuzzyMatchResult`.  `distance` lives in `WithTop ℕ` because
`partialMatch` and `multiQueryMatch` use `Infinity` as a sentinel. -/
structure FuzzyMatchResult where
  text : Str
  score : ℚ
  distance : WithTop Nat
  matched : Bool
deriving DecidableEq

/-- One row update of the Levenshtein dynamic program: `diag` is
`matrix[i-1][j-1]`, `above` the tail `matrix[i-1][j..]`, `left` the entry
`matrix[i][j-1]` just computed. -/
def levRowGo (c2 : Nat) : Str → Nat → List Nat → Nat → List Nat
  | [], _, _, _ => []
  | c1 :: rest, diag, above, left =>
      match above with
      | [] => []
      | a :: above' =>
          let v := if c2 == c1 then diag
            else Nat.min (diag + 1) (Nat.min (left + 1) (a + 1))
          v :: levRowGo c2 rest a above' v

/-- Row iteration of `levenshteinDistance`: one row per character of
`str2`, starting from `matrix[0] = [0, 1, …, len str1]`. -/
def levRowsGo (str1 : Str) : Str → List Nat → List Nat
  | [], prev => prev
  | c2 :: rest2, prev =>
      let first := prev.headD 0 + 1
      levRowsGo str1 rest2 (first :: levRowGo c2 str1 (prev.headD 0) prev.tail first)

/-- `FuzzySearch.levenshteinDistance`: the `(len str2 + 1) × (len str1 + 1)`
dynamic program of the source, with its early returns for empty inputs; the
result is `matrix[str2.length][str1.length]`, the last entry of the last
row. -/
def levenshteinDistance (str1 str2 : Str) : Nat :=
  if str1.length = 0 then str2.length
  else if str2.length = 0 then str1.length
  else ((levRowsGo str1 str2 (List.range (str1.length + 1))).getLast?).getD 0

/-- `FuzzySearch.calculateSimilarity`:
`1 - distance / max(len, len)`, with `1.0` when both strings are empty. -/
def calculateSimilarity (str1 str2 : Str) : ℚ :=
  let maxLength := max str1.length str2.length
  if maxLength = 0 then 1
  else 1 - (levenshteinDistance str1 str2 : ℚ) / (maxLength : ℚ)

/-- `FuzzySearch.match` (renamed: `match` is reserved in Lean).  Defaults:
`threshold = 0.6`, `maxDistance = 3`, `normalizeText = true`,
`caseSensitive = false`, `includeScore = true`. -/
def fmatch (query target : Str) (o : FuzzySearchOptions) : FuzzyMatchResult :=
  let threshold := o.threshold.getD (3 / 5)
  let maxDistance := o.maxDistance.getD 3
  let normalizeText := o.normalizeText.getD true
  let caseSensitive := o.caseSensitive.getD false
  let includeScore := o.includeScore.getD true
  let nq0 := if normalizeText then TextNormalizer.normalizeForSearch query else query
  let nt0 := if normalizeText then TextNormalizer.normalizeForSearch target else target
  let nq := if caseSensitive then nq0 else lowerStr nq0
  let nt := if caseSensitive then nt0 else lowerStr nt0
  let distance := levenshteinDistance nq nt
  let score := calculateSimilarity nq nt
  let matched := decide (threshold ≤ score) && decide (distance ≤ maxDistance)
  { text := target
    score := if includeScore then score else 0
    distance := (distance : WithTop Nat)
    matched := matched }

/-- `FuzzySearch.partialMatch`: perfect match on normalized substring
containment, otherwise the best word-pair `fmatch` over the whitespace
splits of query and target. -/
def partialMatch (query target : Str) (o : FuzzySearchOptions) : FuzzyMatchResult :=
  let threshold := o.threshold.getD (3 / 5)
  let normalizeText := o.normalizeText.getD true
  let caseSensitive := o.caseSensitive.getD false
  let nq0 := if normalizeText then TextNormalizer.normalizeForPartialMatch query else query
  let nt0 := if normalizeText then TextNormalizer.normalizeForPartialMatch target else target
  let nq := if caseSensitive then nq0 else lowerStr nq0
  let nt := if caseSensitive then nt0 else lowerStr nt0
  if strIncludes nt nq then
    { text := target, score := 1, distance := (0 : Nat), matched := true }
  else
    let queryWords := splitWs nq
    let targetWords := splitWs nt
    let best : ℚ × WithTop Nat :=
      queryWords.foldl
        (fun b qw =>
          targetWords.foldl
            (fun b' tw =>
              let result := fmatch qw tw { o with includeScore := some true }
              if result.matched ∧ b'.1 < result.score then (result.score, result.distance)
              else b')
            b)
        (0, ⊤)
    { text := target
      score := best.1
      distance := best.2
      matched := decide (threshold ≤ best.1) }

/-- `FuzzySearch.multiQueryOrMatch`: maps `partialMatch` over the queries
and reduces to the best-scoring result.  JavaScript `reduce` with no
initial value throws on an empty array, modelled as `none`. -/
def multiQueryOrMatch (queries : List Str) (target : Str)
    (o : FuzzySearchOptions) : Option FuzzyMatchResult :=
  match queries.map (fun q => partialMatch q target o) with
  | [] => none
  | r :: rs =>
      some (rs.foldl (fun best cur => if best.score < cur.score then cur else best) r)

/-- A highlight span: `start`/`stop` are the source's `start`/`end`
(renamed: `end` is reserved in Lean); half-open offsets. -/
structure Span where
  start : Nat
  stop : Nat
  score : ℚ
deriving DecidableEq

/-- Stable insertion respecting the strict precedence `prec` (mirrors a
stable `Array.prototype.sort` with a comparator). -/
def insertPrec {α : Type} (prec : α → α → Bool) (x : α) : List α → List α
  | [] => [x]
  | y :: ys => if prec y x then y :: insertPrec prec x ys else x :: y :: ys

def sortPrec {α : Type} (prec : α → α → Bool) : List α → List α
  | [] => []
  | x :: xs => insertPrec prec x (sortPrec prec xs)

/-- The full-query pass of `generateHighlight`: repeated `indexOf` from
`startIndex`, stepping to `index + 1`, pushing a span of score 1.0 per
occurrence.  The JavaScript loop is `while (true)`, so it is modelled with
fuel; `none` means the loop did not finish within `fuel` steps (for a
non-empty pattern it always finishes once `fuel` exceeds the text length). -/
def collectExactGo : Nat → Str → Str → Nat → List Span → Option (List Span)
  | 0, _, _, _, _ => none
  | fuel + 1, ntext, nq, start, acc =>
      match jsIndexOf ntext nq start with
      | none => some acc
      | some i => collectExactGo fuel ntext nq (i + 1) (acc ++ [⟨i, i + nq.length, 1⟩])

/-- The word pass of `generateHighlight` for one query word: like the exact
pass but pushing score 0.8 and skipping any occurrence that overlaps an
already collected span. -/
def collectWordGo : Nat → Str → Str → Nat → List Span → Option (List Span)
  | 0, _, _, _, _ => none
  | fuel + 1, ntext, w, start, acc =>
      match jsIndexOf ntext w start with
      | none => some acc
      | some i =>
          let overlaps := acc.any fun h =>
            decide (i < h.stop) && decide (h.start < i + w.length)
          collectWordGo fuel ntext w (i + 1)
            (if overlaps then acc else acc ++ [⟨i, i + w.length, 4 / 5⟩])

/-- Iterate the word pass over all query words. -/
def wordsFold (fuel : Nat) (ntext : Str) : List Str → List Span → Option (List Span)
  | [], acc => some acc
  | w :: ws, acc =>
      match collectWordGo fuel ntext w 0 acc with
      | none => none
      | some acc' => wordsFold fuel ntext ws acc'

/-- The record returned by `generateHighlight`. -/
structure HighlightResult where
  text : Str
  highlighted : List Span
deriving DecidableEq

/-- `FuzzySearch.generateHighlight`, fuel-indexed (see `collectExactGo`):
normalization and case folding, the exact pass, the per-word pass with
overlap suppression, then a sort of the spans by start offset. -/
def generateHighlight (fuel : Nat) (query text : Str)
    (o : FuzzySearchOptions) : Option HighlightResult :=
  let normalizeText := o.normalizeText.getD true
  let caseSensitive := o.caseSensitive.getD false
  let nq0 := if normalizeText then TextNormalizer.normalizeForPartialMatch query else query
  let nt0 := if normalizeText then TextNormalizer.normalizeForPartialMatch text else text
  let nq := if caseSensitive then nq0 else lowerStr nq0
  let nt := if caseSensitive then nt0 else lowerStr nt0
  match collectExactGo fuel nt nq 0 [] with
  | none => none
  | some spans1 =>
      match wordsFold fuel nt (splitWs nq) spans1 with
      | none => none
      | some spans2 =>
          some ⟨text, sortPrec (fun a b => decide (a.start < b.start)) spans2⟩

end FuzzySearch

/-! ## SearchEngine -/

namespace SearchEngine

/-- `SearchOptions.searchMode` values (`partial` is reserved in Lean, hence
`partialMode`). -/
inductive SearchMode where
  | exact
  | partialMode
  | fuzzy
  | hybrid
deriving DecidableEq

/-- `SearchOptions`: `query` plus optional settings (defaults are applied by
each entry point, matching the destructuring defaults of the source). -/
structure SearchOptions where
  query : Str
  useNormalization : Option Bool := none
  useFuzzySearch : Option Bool := none
  fuzzyThreshold : Option ℚ := none
  searchMode : Option SearchMode := none
  includeHighlights : Option Bool := none
  maxResults : Option Nat := none
deriving DecidableEq

/-- A memo record as consumed by the engine: the five searched fields, plus
`title` (read only by `evaluateFieldQuery`) and an id. -/
structure Memo where
  id : Nat
  content : Str
  tags : List Str
  category : Option Str := none
  summary : Option Str := none
  keywords : List Str := []
  title : Option Str := none
deriving DecidableEq

/-- The names of the five weighted fields. -/
inductive FieldName where
  | content
  | tags
  | category
  | summary
  | keywords
deriving DecidableEq

/-- `Array.prototype.join(' ')`. -/
def joinSpace (l : List Str) : Str := List.intercalate [0x20] l

/-- The weighted field list built by `searchMemo`:
`content=1.0, tags=0.8, category=0.6, summary=0.7, keywords=0.9` (tag and
keyword arrays joined by spaces, null category/summary as empty string). -/
def memoFields (m : Memo) : List (FieldName × Str × ℚ) :=
  [(FieldName.content, m.content, 1),
   (FieldName.tags, joinSpace m.tags, 4 / 5),
   (FieldName.category, m.category.getD [], 3 / 5),
   (FieldName.summary, m.summary.getD [], 7 / 10),
   (FieldName.keywords, joinSpace m.keywords, 9 / 10)]

/-- The options record passed from `searchMemo`/`enhancedTextSearch` down to
`searchField` (all defaults already applied). -/
structure InnerOptions where
  useNormalization : Bool
  useFuzzySearch : Bool
  fuzzyThreshold : ℚ
  searchMode : SearchMode
  includeHighlights : Bool
deriving DecidableEq

/-- Return value of `searchField`. -/
structure FieldSearchResult where
  matched : Bool
  score : ℚ
  highlights : List FuzzySearch.Span
  fuzzyScore : ℚ
deriving DecidableEq

/-- `includeHighlights ? FuzzySearch.generateHighlight(query, fieldValue).highlighted : []`
(fuel-indexed because `generateHighlight` is; see C2). -/
def highlightsFor (fuel : Nat) (includeHighlights : Bool) (query fieldValue : Str) :
    Option (List FuzzySearch.Span) :=
  if includeHighlights then
    (FuzzySearch.generateHighlight fuel query fieldValue {}).map (fun h => h.highlighted)
  else some []

/-- The word-overlap tier of `searchField`: fraction of query words
contained in some field word, succeeding when above 0.5. -/
def searchFieldWordTier (fuel : Nat) (query fieldValue nq nf : Str)
    (includeHighlights : Bool) : Option FieldSearchResult :=
  let queryWords := splitWs nq
  let fieldWords := splitWs nf
  let matchedWords := queryWords.countP fun qw => fieldWords.any fun fw => strIncludes fw qw
  let wordMatchScore := (matchedWords : ℚ) / (queryWords.length : ℚ)
  if (1 : ℚ) / 2 < wordMatchScore then
    (highlightsFor fuel includeHighlights query fieldValue).map
      fun hl => ⟨true, wordMatchScore, hl, wordMatchScore⟩
  else some ⟨false, 0, [], 0⟩

/-- `SearchEngine.searchField`: normalized containment (score 1.0), then the
fuzzy tier (when enabled), then the word-overlap tier. -/
def searchField (fuel : Nat) (query fieldValue : Str) (o : InnerOptions) :
    Option FieldSearchResult :=
  let nq := if o.useNormalization then TextNormalizer.normalizeForSearch query else query
  let nf := if o.useNormalization then TextNormalizer.normalizeForSearch fieldValue else fieldValue
  if strIncludes (lowerStr nf) (lowerStr nq) then
    (highlightsFor fuel o.includeHighlights query fieldValue).map fun hl => ⟨true, 1, hl, 1⟩
  else if o.useFuzzySearch then
    let fuzzyResult := FuzzySearch.partialMatch nq nf
      { threshold := some o.fuzzyThreshold
        normalizeText := some false
        caseSensitive := some false }
    if fuzzyResult.matched then
      (highlightsFor fuel o.includeHighlights query fieldValue).map
        fun hl => ⟨true, fuzzyResult.score, hl, fuzzyResult.score⟩
    else searchFieldWordTier fuel query fieldValue nq nf o.includeHighlights
  else searchFieldWordTier fuel query fieldValue nq nf o.includeHighlights

/-- The accumulator of `searchMemo`'s field loop. -/
structure MemoAcc where
  totalScore : ℚ
  maxScore : ℚ
  highlights : List (FieldName × List FuzzySearch.Span)
  matchedFields : List FieldName
  fuzzyScore : ℚ
deriving DecidableEq

/-- The field loop of `searchMemo`: skip empty values, search the rest,
accumulate weighted total, running max, matched field names, the best fuzzy
score and the per-field highlights. -/
def searchMemoGo (fuel : Nat) (q : Str) (o : InnerOptions) :
    List (FieldName × Str × ℚ) → MemoAcc → Option MemoAcc
  | [], acc => some acc
  | (name, value, weight) :: rest, acc =>
      if value = [] then searchMemoGo fuel q o rest acc
      else
        match searchField fuel q value o with
        | none => none
        | some fr =>
            if fr.matched then
              let weightedScore := fr.score * weight
              searchMemoGo fuel q o rest
                { totalScore := acc.totalScore + weightedScore
                  maxScore := max acc.maxScore weightedScore
                  highlights := acc.highlights ++
                    (if o.includeHighlights ∧ fr.highlights ≠ [] then [(name, fr.highlights)] else [])
                  matchedFields := acc.matchedFields ++ [name]
                  fuzzyScore := if acc.fuzzyScore < fr.fuzzyScore then fr.fuzzyScore else acc.fuzzyScore }
            else searchMemoGo fuel q o rest acc

/-- Return value of `searchMemo`. -/
structure MemoSearchResult where
  matched : Bool
  score : ℚ
  highlights : List (FieldName × List FuzzySearch.Span)
  fuzzyScore : ℚ
  matchedFields : List FieldName
deriving DecidableEq

/-- `SearchEngine.searchMemo`: run the field loop over the five weighted
fields; final score is `(total + max) / 2` in hybrid mode, the plain total
otherwise; matched iff some field matched. -/
def searchMemo (fuel : Nat) (m : Memo) (q : Str) (o : InnerOptions) :
    Option MemoSearchResult :=
  match searchMemoGo fuel q o (memoFields m) ⟨0, 0, [], [], 0⟩ with
  | none => none
  | some acc =>
      let finalScore := if o.searchMode = SearchMode.hybrid
        then (acc.totalScore + acc.maxScore) / 2
        else acc.totalScore
      some
        { matched := decide (acc.matchedFields ≠ [])
          score := finalScore
          highlights := acc.highlights
          fuzzyScore := acc.fuzzyScore
          matchedFields := acc.matchedFields }

/-- One entry of an `EnhancedSearchResult` list: the spread memo plus the
ranking fields the engine adds. -/
structure SearchResultEntry where
  memo : Memo
  rankScore : ℚ
  highlights : List (FieldName × List FuzzySearch.Span)
  fuzzyScore : ℚ
  matchedFields : List FieldName
deriving DecidableEq

/-- Descending stable order on `rankScore`
(`(a, b) => (b.rankScore || 0) - (a.rankScore || 0)`): `y` strictly precedes
`x` iff `y.rankScore > x.rankScore`. -/
def entryPrec (y x : SearchResultEntry) : Bool := decide (x.rankScore < y.rankScore)

/-- The memo loop of `enhancedTextSearch`: keep (in order) the memos whose
`searchMemo` matched, as result entries. -/
def enhancedCollect (fuel : Nat) (nq : Str) (o : InnerOptions) :
    List Memo → Option (List SearchResultEntry)
  | [] => some []
  | m :: rest =>
      match searchMemo fuel m nq o with
      | none => none
      | some r =>
          match enhancedCollect fuel nq o rest with
          | none => none
          | some tail =>
              some (if r.matched then
                ⟨m, r.score, r.highlights, r.fuzzyScore, r.matchedFields⟩ :: tail
                else tail)

/-- `SearchEngine.enhancedTextSearch`: empty (trimmed) query short-circuits
to `[]`; otherwise normalize the query, score every memo, keep matches,
sort by descending `rankScore` and truncate to `maxResults` (default 20). -/
def enhancedTextSearch (fuel : Nat) (memos : List Memo) (o : SearchOptions) :
    Option (List SearchResultEntry) :=
  let useNormalization := o.useNormalization.getD true
  let useFuzzySearch := o.useFuzzySearch.getD false
  let fuzzyThreshold := o.fuzzyThreshold.getD (7 / 10)
  let searchMode := o.searchMode.getD SearchMode.hybrid
  let includeHighlights := o.includeHighlights.getD true
  let maxResults := o.maxResults.getD 20
  if TextNormalizer.jsTrim o.query = [] then some []
  else
    let nq := if useNormalization then TextNormalizer.normalizeForSearch o.query else o.query
    match enhancedCollect fuel nq
        ⟨useNormalization, useFuzzySearch, fuzzyThreshold, searchMode, includeHighlights⟩
        memos with
    | none => none
    | some results => some ((FuzzySearch.sortPrec entryPrec results).take maxResults)

/-- `TagSearchOptions.mode` values. -/
inductive TagMode where
  | any
  | all
  | exact
deriving DecidableEq

/-- `TagSearchOptions` (`partial` is reserved in Lean, hence `partialB`). -/
structure TagSearchOptions where
  query : Str
  mode : TagMode
  partialB : Option Bool := none
  fuzzy : Option Bool := none
  threshold : Option ℚ := none
deriving DecidableEq

/-- The per-tag loop of `searchTags`, accumulating
`(matchedTags, totalScore, maxFuzzyScore)`.  Cascade per tag: exact
normalized equality (1.0), then substring containment when `partial`
(0.8), then `FuzzySearch.match` when `fuzzy` (its score, also feeding
`maxFuzzyScore`). -/
def searchTagsGo (q : Str) (partialB fuzzy : Bool) (threshold : ℚ) :
    List Str → (List Str × ℚ × ℚ) → (List Str × ℚ × ℚ)
  | [], acc => acc
  | tag :: rest, (matchedTags, totalScore, maxFuzzy) =>
      let nt := TextNormalizer.normalizeForSearch tag
      if nt = q then
        searchTagsGo q partialB fuzzy threshold rest
          (matchedTags ++ [tag], totalScore + 1, maxFuzzy)
      else if partialB ∧ strIncludes nt q then
        searchTagsGo q partialB fuzzy threshold rest
          (matchedTags ++ [tag], totalScore + 4 / 5, maxFuzzy)
      else if fuzzy then
        let fuzzyResult := FuzzySearch.fmatch q nt
          { threshold := some threshold, normalizeText := some false }
        if fuzzyResult.matched then
          searchTagsGo q partialB fuzzy threshold rest
            (matchedTags ++ [tag], totalScore + fuzzyResult.score,
              max maxFuzzy fuzzyResult.score)
        else searchTagsGo q partialB fuzzy threshold rest (matchedTags, totalScore, maxFuzzy)
      else searchTagsGo q partialB fuzzy threshold rest (matchedTags, totalScore, maxFuzzy)

/-- Return value of `searchTags`. -/
structure TagsSearchResult where
  matched : Bool
  score : ℚ
  fuzzyScore : ℚ
  matchedTags : List Str
deriving DecidableEq

/-- `SearchEngine.searchTags`: run the tag loop, then decide the final match
by mode — `exact` requires every tag of the record to have matched, while
`all` and `any` both require only a non-empty match set; score is the mean
over matched tags. -/
def searchTags (tags : List Str) (q : Str) (mode : TagMode)
    (partialB fuzzy : Bool) (threshold : ℚ) : TagsSearchResult :=
  let acc := searchTagsGo q partialB fuzzy threshold tags ([], 0, 0)
  let matchedTags := acc.1
  let totalScore := acc.2.1
  let maxFuzzy := acc.2.2
  let finalMatched :=
    match mode with
    | TagMode.exact => decide (matchedTags.length = tags.length)
    | TagMode.all => decide (0 < matchedTags.length)
    | TagMode.any => decide (0 < matchedTags.length)
  let finalScore := if 0 < matchedTags.length
    then totalScore / (matchedTags.length : ℚ) else 0
  ⟨finalMatched, finalScore, maxFuzzy, matchedTags⟩

/-- The memo loop of `enhancedTagSearch`: memos without tags are skipped;
matched memos become entries with `matchedFields = ['tags']` and no
highlights. -/
def tagCollect (nq : Str) (mode : TagMode) (partialB fuzzy : Bool)
    (threshold : ℚ) : List Memo → List SearchResultEntry
  | [] => []
  | m :: rest =>
      if m.tags = [] then tagCollect nq mode partialB fuzzy threshold rest
      else
        let tr := searchTags m.tags nq mode partialB fuzzy threshold
        if tr.matched then
          ⟨m, tr.score, [], tr.fuzzyScore, [FieldName.tags]⟩ ::
            tagCollect nq mode partialB fuzzy threshold rest
        else tagCollect nq mode partialB fuzzy threshold rest

/-- `SearchEngine.enhancedTagSearch`: empty (trimmed) query short-circuits
to `[]`; otherwise normalize the query, run `searchTags` per memo, and sort
the matches by descending score. -/
def enhancedTagSearch (memos : List Memo) (o : TagSearchOptions) :
    List SearchResultEntry :=
  let partialB := o.partialB.getD true
  let fuzzy := o.fuzzy.getD true
  let threshold := o.threshold.getD (7 / 10)
  if TextNormalizer.jsTrim o.query = [] then []
  else
    let nq := TextNormalizer.normalizeForSearch o.query
    FuzzySearch.sortPrec entryPrec (tagCollect nq o.mode partialB fuzzy threshold memos)

end SearchEngine

namespace SearchEngine

/-- The four field-clause keywords of `parseComplexQuery`'s regex
`(tag|category|title|content):([^\s]+)`. -/
inductive QueryField where
  | tag
  | category
  | title
  | content
deriving DecidableEq

def fieldKeyword : QueryField → Str
  | QueryField.tag => [0x74, 0x61, 0x67]
  | QueryField.category => [0x63, 0x61, 0x74, 0x65, 0x67, 0x6F, 0x72, 0x79]
  | QueryField.title => [0x74, 0x69, 0x74, 0x6C, 0x65]
  | QueryField.content => [0x63, 0x6F, 0x6E, 0x74, 0x65, 0x6E, 0x74]

/-- Try to match a field clause at the head of `s`: one of the keywords,
a colon, then a maximal non-empty run of non-whitespace characters (the
greedy `[^\s]+`).  At most one keyword can match at a given offset, so the
regex alternation order is immaterial. -/
def tryFieldAux (s : Str) : List QueryField → Option (QueryField × Str)
  | [] => none
  | f :: rest =>
      let kw := fieldKeyword f ++ [0x3A]
      if kw.isPrefixOf s then
        let v := (s.drop kw.length).takeWhile fun c => !jsWs c
        if v = [] then tryFieldAux s rest else some (f, v)
      else tryFieldAux s rest

def tryFieldAt (s : Str) : Option (QueryField × Str) :=
  tryFieldAux s [QueryField.tag, QueryField.category, QueryField.title, QueryField.content]

/-- The field-clause scan: the `fieldRegex.exec` loop plus the
`query.replace(fieldRegex, '')` pass, in one traversal — it returns the
clauses in text order and the input with the matched clauses deleted. -/
def fieldScanGo : Str → List (QueryField × Str) × Str
  | [] => ([], [])
  | c :: r =>
      match tryFieldAt (c :: r) with
      | some (f, v) =>
          let n := (fieldKeyword f).length + 1 + v.length
          let p := fieldScanGo ((c :: r).drop n)
          ((f, v) :: p.1, p.2)
      | none =>
          let p := fieldScanGo r
          (p.1, c :: p.2)
termination_by s => s.length
decreasing_by
  all_goals (simp [List.length_drop]; try omega)

/-- Boolean operator kinds. -/
inductive OpType where
  | AND
  | OR
  | NOT
deriving DecidableEq

/-- The alias table of `parseComplexQuery` in source order, each operator
paired with the type its classification assigns
(`AND/かつ/＋ → AND`, `OR/または/｜ → OR`, `NOT/除く/－ → NOT`). -/
def operatorTable : List (Str × OpType) :=
  [([0x41, 0x4E, 0x44], OpType.AND),
   ([0x4F, 0x52], OpType.OR),
   ([0x4E, 0x4F, 0x54], OpType.NOT),
   ([0x304B, 0x3064], OpType.AND),
   ([0x307E, 0x305F, 0x306F], OpType.OR),
   ([0x9664, 0x304F], OpType.NOT),
   ([0xFF0B], OpType.AND),
   ([0xFF5C], OpType.OR),
   ([0xFF0D], OpType.NOT)]

/-- Case canonicalization of the `i` regex flag, restricted to ASCII (the
operator literals contain no cased non-ASCII characters, and fullwidth
letters do not case-fold onto ASCII in JavaScript regexes). -/
def asciiUpper (c : Nat) : Nat := if 0x61 ≤ c ∧ c ≤ 0x7A then c - 0x20 else c

/-- Case-insensitive prefix test (pattern first). -/
def ciPrefix : Str → Str → Bool
  | [], _ => true
  | _ :: _, [] => false
  | a :: as, b :: bs => asciiUpper a == asciiUpper b && ciPrefix as bs

/-- Is position `i` of `s` occupied by a `\w` character? -/
def wordAt (s : Str) (i : Nat) : Bool := i < s.length && jsWordChar (s.getD i 0)

/-- The `\b` assertion at position `i`: exactly one of the two adjacent
positions holds a word character (out-of-range counts as non-word). -/
def boundary (s : Str) (i : Nat) : Bool :=
  (if i = 0 then false else wordAt s (i - 1)) != wordAt s i

/-- Does `\b<op>\b` (case-insensitive) match at position `p`? -/
def opMatchAt (op s : Str) (p : Nat) : Bool :=
  ciPrefix op (s.drop p) && boundary s p && boundary s (p + op.length)

/-- The `regex.exec` loop for one operator: record every match position,
resuming after each match (`lastIndex` advances by the match length). -/
def opScanGo (op s : Str) (p : Nat) : List Nat :=
  if op = [] then []
  else if s.length < p + op.length then []
  else if opMatchAt op s p then p :: opScanGo op s (p + op.length)
  else opScanGo op s (p + 1)
termination_by s.length + 1 - p
decreasing_by
  all_goals (try have hop : 1 ≤ op.length := List.length_pos.mpr ‹op ≠ []›)
  all_goals omega

/-- The removal pass `replace(/\b<op>\b/gi, ' ')` for one operator. -/
def opRemoveGo (op s : Str) (p : Nat) : Str :=
  if op = [] then s.drop p
  else if s.length ≤ p then []
  else if opMatchAt op s p then 0x20 :: opRemoveGo op s (p + op.length)
  else s.getD p 0 :: opRemoveGo op s (p + 1)
termination_by s.length - p
decreasing_by
  all_goals (try have hop : 1 ≤ op.length := List.length_pos.mpr ‹op ≠ []›)
  all_goals omega

/-- The quoted-phrase scan: the `/"([^"]+)"/g` exec loop and its
`replace(quotedRegex, ' ')`, in one traversal; returns the phrase contents
in order and the string with each whole quoted phrase replaced by one
space. -/
def quoteScanGo (s : Str) (p : Nat) : List Str × Str :=
  if s.length ≤ p then ([], [])
  else if s.getD p 0 == 0x22 then
    let inner := (s.drop (p + 1)).takeWhile fun c => c != 0x22
    if inner ≠ [] ∧ p + 1 + inner.length < s.length then
      let q := quoteScanGo s (p + inner.length + 2)
      (inner :: q.1, 0x20 :: q.2)
    else
      let q := quoteScanGo s (p + 1)
      (q.1, 0x22 :: q.2)
  else
    let q := quoteScanGo s (p + 1)
    (q.1, s.getD p 0 :: q.2)
termination_by s.length - p
decreasing_by
  all_goals omega

/-- The result of `parseComplexQuery`. -/
structure ParsedQuery where
  terms : List Str
  tags : List Str
  categories : List Str
  operators : List (OpType × Nat)
  fieldQueries : List (QueryField × Str)
deriving DecidableEq

/-- `SearchEngine.parseComplexQuery`: extract field clauses (removing them),
trim, record operator keyword occurrences, strip the keywords, extract
quoted phrases, and split the remainder on whitespace into free terms. -/
def parseComplexQuery (query : Str) : ParsedQuery :=
  let fs := fieldScanGo query
  let fieldQueries := fs.1
  let tags := (fieldQueries.filter fun fq => fq.1 = QueryField.tag).map Prod.snd
  let categories :=
    (fieldQueries.filter fun fq => fq.1 = QueryField.category).map Prod.snd
  let cleanQuery := TextNormalizer.jsTrim fs.2
  let operators := operatorTable.foldl
    (fun acc op => acc ++ (opScanGo op.1 cleanQuery 0).map fun p => (op.2, p)) []
  let cleanQuery2 := operatorTable.foldl (fun s op => opRemoveGo op.1 s 0) cleanQuery
  let qs := quoteScanGo cleanQuery2 0
  let remainingTerms := (splitWs qs.2).filter fun t => TextNormalizer.jsTrim t ≠ []
  { terms := qs.1 ++ remainingTerms
    tags := tags
    categories := categories
    operators := operators
    fieldQueries := fieldQueries }

/-- JavaScript `x || d` for an optional boolean. -/
def jsOrB (x : Option Bool) (d : Bool) : Bool :=
  match x with
  | some true => true
  | _ => d

/-- JavaScript `x || d` for an optional number (`0` is falsy). -/
def jsOrQ (x : Option ℚ) (d : ℚ) : ℚ :=
  match x with
  | some v => if v = 0 then d else v
  | none => d

/-- `SearchEngine.evaluateFieldQuery`: pick the memo field addressed by the
clause, compare normalized containment (score 1.0), then optionally the
fuzzy tier. -/
def evaluateFieldQuery (m : Memo) (field : QueryField) (value : Str)
    (o : SearchOptions) : Bool × ℚ :=
  let fieldValue := match field with
    | QueryField.tag => joinSpace m.tags
    | QueryField.category => m.category.getD []
    | QueryField.title => m.title.getD []
    | QueryField.content => m.content
  let normalizedValue := TextNormalizer.normalizeForSearch value
  let normalizedField := TextNormalizer.normalizeForSearch fieldValue
  if strIncludes normalizedField normalizedValue then (true, 1)
  else if jsOrB o.useFuzzySearch false then
    let fuzzyResult := FuzzySearch.partialMatch normalizedValue normalizedField
      { threshold := some (jsOrQ o.fuzzyThreshold (7 / 10)) }
    if fuzzyResult.matched then (true, fuzzyResult.score) else (false, 0)
  else (false, 0)

/-- The field-clause loop of `complexSearch` for one memo: `none` when some
clause fails (the loop breaks and the memo is rejected), otherwise the pair
(accumulated score, number of clauses — each matched clause increments
`matchCount`). -/
def evalFieldQueries (m : Memo) (o : SearchOptions) :
    List (QueryField × Str) → Option (ℚ × Nat)
  | [] => some (0, 0)
  | fq :: rest =>
      let r := evaluateFieldQuery m fq.1 fq.2 o
      if r.1 then (evalFieldQueries m o rest).map fun p => (r.2 + p.1, p.2 + 1)
      else none

/-- The options `complexSearch` hands to `searchMemo` for free-term
evaluation.  Note `useNormalization: options.useNormalization || true` is
always `true` (the `||` swallows an explicit `false`). -/
def complexInnerOptions (o : SearchOptions) : InnerOptions :=
  { useNormalization := jsOrB o.useNormalization true
    useFuzzySearch := jsOrB o.useFuzzySearch false
    fuzzyThreshold := jsOrQ o.fuzzyThreshold (7 / 10)
    searchMode := o.searchMode.getD SearchMode.hybrid
    includeHighlights := jsOrB o.includeHighlights false }

/-- The free-term loop of `complexSearch` for one memo: sum of the scores of
the matched terms and their count. -/
def evalTerms (fuel : Nat) (m : Memo) (o : SearchOptions) :
    List Str → Option (ℚ × Nat)
  | [] => some (0, 0)
  | t :: rest =>
      match searchMemo fuel m t (complexInnerOptions o) with
      | none => none
      | some r =>
          match evalTerms fuel m o rest with
          | none => none
          | some p => some (if r.matched then (r.score + p.1, p.2 + 1) else p)

/-- The per-memo evaluation of `complexSearch`: `none` = divergence inside a
term's highlight computation; `some none` = memo rejected; `some (some e)` =
memo accepted with entry `e` (`rankScore = totalScore / matchCount`,
`matchedFields = ['content']`, no highlights or fuzzy score). -/
def complexMemoEval (fuel : Nat) (pq : ParsedQuery) (o : SearchOptions)
    (m : Memo) : Option (Option SearchResultEntry) :=
  match evalFieldQueries m o pq.fieldQueries with
  | none => some none
  | some fp =>
      if pq.terms ≠ [] then
        match evalTerms fuel m o pq.terms with
        | none => none
        | some tp =>
            let totalScore := fp.1 + tp.1
            let matchCount := fp.2 + tp.2
            some (if 0 < matchCount then
              some ⟨m, totalScore / (matchCount : ℚ), [], 0, [FieldName.content]⟩
              else none)
      else
        some (if 0 < fp.2 then
          some ⟨m, fp.1 / (fp.2 : ℚ), [], 0, [FieldName.content]⟩
          else none)

/-- The memo loop of `complexSearch`. -/
def complexCollect (fuel : Nat) (pq : ParsedQuery) (o : SearchOptions) :
    List Memo → Option (List SearchResultEntry)
  | [] => some []
  | m :: rest =>
      match complexMemoEval fuel pq o m with
      | none => none
      | some e? =>
          match complexCollect fuel pq o rest with
          | none => none
          | some tail =>
              some (match e? with
                | some e => e :: tail
                | none => tail)

/-- `SearchEngine.complexSearch`: parse; with no operators and no field
clauses fall back to `enhancedTextSearch`; otherwise require every field
clause to match, evaluate free terms through `searchMemo`, keep memos with
`matchCount > 0` scored by the mean of the matched clause/term scores, and
sort descending. -/
def complexSearch (fuel : Nat) (memos : List Memo) (query : Str)
    (o : SearchOptions) : Option (List SearchResultEntry) :=
  let pq := parseComplexQuery query
  if pq.operators = [] ∧ pq.fieldQueries = [] then
    enhancedTextSearch fuel memos { o with query := query }
  else
    match complexCollect fuel pq o memos with
    | none => none
    | some results => some (FuzzySearch.sortPrec entryPrec results)

end SearchEngine

namespace FuzzySearch

/-- The normalized, case-folded text that `generateHighlight` computes its
offsets against (not the original text; see the C5 counterexample). -/
def normalizedHighlightText (t : Str) (o : FuzzySearchOptions) : Str :=
  let nt0 := if o.normalizeText.getD true then TextNormalizer.normalizeForPartialMatch t else t
  if o.caseSensitive.getD false then nt0 else lowerStr nt0

/-- The invariant of every span `generateHighlight` pushes: non-empty,
within the normalized text, scored 1.0 (exact pass) or 0.8 (word pass). -/
def SpanOk (tlen : Nat) (sp : Span) : Prop :=
  sp.start < sp.stop ∧ sp.stop ≤ tlen ∧ (sp.score = 1 ∨ sp.score = 4 / 5)

end FuzzySearch

namespace SearchEngine

/-- Independent evaluation of the weighted fields (skipping empty values),
keeping each field's name, weight and `searchField` result — the reference
against which the accumulating loop of `searchMemo` is verified. -/
def fieldEvalsGo (fuel : Nat) (q : Str) (o : InnerOptions) :
    List (FieldName × Str × ℚ) → Option (List (FieldName × ℚ × FieldSearchResult))
  | [] => some []
  | (name, value, weight) :: rest =>
      if value = [] then fieldEvalsGo fuel q o rest
      else
        match searchField fuel q value o with
        | none => none
        | some fr => (fieldEvalsGo fuel q o rest).map fun l => (name, weight, fr) :: l

/-- The weighted scores of the matched field evaluations. -/
def weightedScores (l : List (FieldName × ℚ × FieldSearchResult)) : List ℚ :=
  (l.filter fun e => e.2.2.matched).map fun e => e.2.2.score * e.2.1

end SearchEngine

namespace SearchEngine

/-- The per-tag match predicate of `searchTags` (the same cascade, as a
boolean): exact normalized equality, or substring containment when
`partial`, or a successful `FuzzySearch.match` when `fuzzy`. -/
def tagMatched (q tag : Str) (partialB fuzzy : Bool) (threshold : ℚ) : Bool :=
  let nt := TextNormalizer.normalizeForSearch tag
  (nt == q) || (partialB && strIncludes nt q) ||
    (fuzzy && (FuzzySearch.fmatch q nt
      { threshold := some threshold, normalizeText := some false }).matched)

end SearchEngine

namespace SearchEngine

/-- Term evaluation results of `complexSearch` for one memo, in order;
`none` when a term's evaluation diverges inside highlight generation. -/
def termEvalsGo (fuel : Nat) (m : Memo) (o : SearchOptions) :
    List Str → Option (List MemoSearchResult)
  | [] => some []
  | t :: rest =>
      match searchMemo fuel m t (complexInnerOptions o) with
      | none => none
      | some r => (termEvalsGo fuel m o rest).map fun rs => r :: rs

/-- The scores of the free terms that match the memo (through `searchMemo`
with `complexSearch`'s inner options). -/
def matchedTermScores (fuel : Nat) (m : Memo) (o : SearchOptions)
    (terms : List Str) : Option (List ℚ) :=
  match termEvalsGo fuel m o terms with
  | none => none
  | some rs => some ((rs.filter fun r => r.matched).map fun r => r.score)

end SearchEngine

/-- The memo of the C1 counterexample: content "hello", tags ["ai"]. -/
def c1Memo : SearchEngine.Memo :=
  ⟨1, [0x68, 0x65, 0x6C, 0x6C, 0x6F], [[0x61, 0x69]], none, none, [], none⟩

/-- The query of the C1 counterexample: "tag:ai xyzzy". -/
def c1Query : Str :=
  [0x74, 0x61, 0x67, 0x3A, 0x61, 0x69, 0x20, 0x78, 0x79, 0x7A, 0x7A, 0x79]

/-- Default options (empty base query). -/
def c1Opts : SearchEngine.SearchOptions := { query := [] }

/-- The entry `complexSearch` produces for the C1 counterexample. -/
def c1Entry : SearchEngine.SearchResultEntry :=
  ⟨c1Memo, 1, [], 0, [SearchEngine.FieldName.content]⟩

section NormalizerChecks

open TextNormalizer

example : normalizeForSearch [0x41, 0x20, 0x20, 0x42] = [0x61, 0x20, 0x62] := by
  decide

example : normalizeForSearch [0x21, 0x61] = [0x61] := by decide

example : normalizeForPartialMatch [0x21, 0x61] = [0x21, 0x61] := by decide

example : normalizeForSearch [0x30A2, 0xFF21] = [0x3042, 0x61] := by decide

end NormalizerChecks

namespace TextNormalizer

theorem k2h_h2k_char (c : Nat) : k2hC (h2kC c) = k2hC c := by
  unfold h2kC k2hC HIRAGANA_START HIRAGANA_END KATAKANA_START KATAKANA_END KATAKANA_OFFSET
  split_ifs <;> omega

theorem h2kC_offset (c : Nat) (h1 : 0x3041 ≤ c) (h2 : c ≤ 0x3096) :
    h2kC c = c + 0x60 := by
  unfold h2kC HIRAGANA_START HIRAGANA_END KATAKANA_OFFSET
  split_ifs <;> omega

theorem k2hC_h2kC_id (c : Nat) (h1 : 0x3041 ≤ c) (h2 : c ≤ 0x3096) :
    k2hC (h2kC c) = c := by
  unfold h2kC k2hC HIRAGANA_START HIRAGANA_END KATAKANA_START KATAKANA_END KATAKANA_OFFSET
  split_ifs <;> omega

theorem h2kC_outside (c : Nat) (h : ¬ (0x3041 ≤ c ∧ c ≤ 0x3096)) : h2kC c = c := by
  unfold h2kC HIRAGANA_START HIRAGANA_END KATAKANA_OFFSET
  split_ifs <;> omega

theorem k2hC_outside (c : Nat) (h : ¬ (0x30A1 ≤ c ∧ c ≤ 0x30F6)) : k2hC c = c := by
  unfold k2hC KATAKANA_START KATAKANA_END KATAKANA_OFFSET
  split_ifs <;> omega

end TextNormalizer

/-- C7: for every string `s`, `katakanaToHiragana (hiraganaToKatakana s)`
equals `katakanaToHiragana s`; every Hiragana code point in
U+3041–U+3096 is shifted by +0x60 by `hiraganaToKatakana` and shifted back
by `katakanaToHiragana`, and every code point outside both kana blocks is
left unchanged by both conversions. -/
theorem C7_kana_round_trip :
    (∀ s : Str,
        TextNormalizer.katakanaToHiragana (TextNormalizer.hiraganaToKatakana s) =
          TextNormalizer.katakanaToHiragana s) ∧
    (∀ c : Nat, 0x3041 ≤ c → c ≤ 0x3096 →
        TextNormalizer.h2kC c = c + 0x60 ∧
          TextNormalizer.k2hC (TextNormalizer.h2kC c) = c) ∧
    (∀ c : Nat, ¬ (0x3041 ≤ c ∧ c ≤ 0x3096) → ¬ (0x30A1 ≤ c ∧ c ≤ 0x30F6) →
        TextNormalizer.h2kC c = c ∧ TextNormalizer.k2hC c = c) := by
  refine ⟨fun s => ?_, fun c h1 h2 => ?_, fun c h1 h2 => ?_⟩
  · unfold TextNormalizer.katakanaToHiragana TextNormalizer.hiraganaToKatakana
    rw [List.map_map]
    exact List.map_congr_left fun c _ => TextNormalizer.k2h_h2k_char c
  · exact ⟨TextNormalizer.h2kC_offset c h1 h2, TextNormalizer.k2hC_h2kC_id c h1 h2⟩
  · exact ⟨TextNormalizer.h2kC_outside c h1, TextNormalizer.k2hC_outside c h2⟩

/-- Witness for C7 at concrete inputs: あ(U+3042) round-trips, and the Latin
letter A(0x41) is untouched by both conversions. -/
theorem C7_kana_round_trip_witness :
    TextNormalizer.h2kC 0x3042 = 0x3042 + 0x60 ∧
      TextNormalizer.k2hC (TextNormalizer.h2kC 0x3042) = 0x3042 ∧
      TextNormalizer.h2kC 0x41 = 0x41 ∧ TextNormalizer.k2hC 0x41 = 0x41 := by
  refine ⟨(C7_kana_round_trip.2.1 0x3042 (by decide) (by decide)).1,
    (C7_kana_round_trip.2.1 0x3042 (by decide) (by decide)).2,
    (C7_kana_round_trip.2.2 0x41 (by decide) (by decide)).1,
    (C7_kana_round_trip.2.2 0x41 (by decide) (by decide)).2⟩

theorem jsWs_iff (c : Nat) : jsWs c = true ↔
    (c = 0x9 ∨ c = 0xA ∨ c = 0xB ∨ c = 0xC ∨ c = 0xD ∨ c = 0x20 ∨
     c = 0xA0 ∨ c = 0x1680 ∨ (0x2000 ≤ c ∧ c ≤ 0x200A) ∨
     c = 0x2028 ∨ c = 0x2029 ∨ c = 0x202F ∨ c = 0x205F ∨
     c = 0x3000 ∨ c = 0xFEFF) := by
  simp [jsWs, Bool.or_eq_true, Bool.and_eq_true, beq_iff_eq,
    decide_eq_true_eq, or_assoc]

theorem keepC_iff (c : Nat) : TextNormalizer.keepC c = true ↔
    ((0x30 ≤ c ∧ c ≤ 0x39) ∨ (0x41 ≤ c ∧ c ≤ 0x5A) ∨ c = 0x5F ∨
     (0x61 ≤ c ∧ c ≤ 0x7A) ∨ jsWs c = true ∨ (0x3040 ≤ c ∧ c ≤ 0x309F) ∨
     (0x30A0 ≤ c ∧ c ≤ 0x30FF) ∨ (0x4E00 ≤ c ∧ c ≤ 0x9FAF)) := by
  simp [TextNormalizer.keepC, jsWordChar, Bool.or_eq_true, Bool.and_eq_true,
    beq_iff_eq, decide_eq_true_eq, or_assoc]

theorem cleanChar_not_ws {c : Nat} (h : CleanChar c) : jsWs c = false := by
  rw [Bool.eq_false_iff]
  intro hw
  rw [jsWs_iff] at hw
  unfold CleanChar at h
  omega

namespace TextNormalizer

theorem lookup_mem {l : List (Nat × Nat)} {c v : Nat} :
    l.lookup c = some v → (c, v) ∈ l := by
  induction l with
  | nil => intro h; simp [List.lookup] at h
  | cons p t ih =>
      obtain ⟨k, w⟩ := p
      intro h
      rw [List.lookup] at h
      by_cases hc : c = k
      · subst hc
        simp at h
        subst h
        exact List.mem_cons_self _ _
      · have hb : (c == k) = false := by simp [hc]
        rw [hb] at h
        simp at h
        exact List.mem_cons_of_mem _ (ih h)

theorem lookup_eq_none {l : List (Nat × Nat)} {c : Nat}
    (h : ∀ p ∈ l, p.1 ≠ c) : l.lookup c = none := by
  induction l with
  | nil => rfl
  | cons p t ih =>
      rw [List.lookup]
      have hp : p.1 ≠ c := h p (List.mem_cons_self p t)
      have : (c == p.1) = false := by
        simp [beq_iff_eq]
        exact fun he => hp he.symm
      rw [this]
      exact ih fun q hq => h q (List.mem_cons_of_mem _ hq)

theorem fwMap_keys_not_clean :
    ∀ p ∈ FULLWIDTH_CHAR_MAP, ¬ CleanChar p.1 ∧ p.1 ≠ 0x20 := by decide

theorem fwMap_upper_values :
    ∀ p ∈ FULLWIDTH_CHAR_MAP,
      (0x41 ≤ p.2 ∧ p.2 ≤ 0x5A) → (0xFF21 ≤ p.1 ∧ p.1 ≤ 0xFF3A) := by decide

theorem f2hC_clean {c : Nat} (h : CleanChar c) : f2hC c = c := by
  unfold f2hC
  rw [lookup_eq_none]
  · rfl
  · intro p hp he
    exact (fwMap_keys_not_clean p hp).1 (he ▸ h)

theorem f2hC_space : f2hC 0x20 = 0x20 := by decide

theorem lowC_clean {c : Nat} (h : CleanChar c) : lowC c = c := by
  unfold CleanChar at h
  unfold lowC
  split_ifs <;> omega

theorem k2hC_clean {c : Nat} (h : CleanChar c) : k2hC c = c := by
  apply k2hC_outside
  unfold CleanChar at h
  omega

theorem rsC_clean {c : Nat} (h : CleanChar c) : rsC c = c := by
  unfold rsC
  have : keepC c = true := by
    rw [keepC_iff]
    unfold CleanChar at h
    omega
  rw [this]
  simp

theorem rsC_space : rsC 0x20 = 0x20 := by decide

theorem lowC_space : lowC 0x20 = 0x20 := by decide

theorem k2hC_space : k2hC 0x20 = 0x20 := by decide

/-- After lowercasing, no code point lies in `A–Z` or in fullwidth `Ａ-Ｚ`. -/
theorem lowC_no_upper (a : Nat) :
    ¬ (0x41 ≤ lowC a ∧ lowC a ≤ 0x5A) ∧ ¬ (0xFF21 ≤ lowC a ∧ lowC a ≤ 0xFF3A) := by
  unfold lowC
  split_ifs <;> omega

/-- Width folding cannot create an ASCII uppercase letter when its input is
neither an ASCII nor a fullwidth uppercase letter. -/
theorem f2hC_no_upper {b : Nat} (h1 : ¬ (0x41 ≤ b ∧ b ≤ 0x5A))
    (h2 : ¬ (0xFF21 ≤ b ∧ b ≤ 0xFF3A)) :
    ¬ (0x41 ≤ f2hC b ∧ f2hC b ≤ 0x5A) := by
  unfold f2hC
  cases hl : FULLWIDTH_CHAR_MAP.lookup b with
  | none => simpa using h1
  | some v =>
      intro hv
      exact h2 (fwMap_upper_values (b, v) (lookup_mem hl) hv)

theorem k2hC_no_upper {b : Nat} (h : ¬ (0x41 ≤ b ∧ b ≤ 0x5A)) :
    ¬ (0x41 ≤ k2hC b ∧ k2hC b ≤ 0x5A) := by
  unfold k2hC KATAKANA_START KATAKANA_END KATAKANA_OFFSET
  split_ifs <;> omega

theorem k2hC_not_kata (b : Nat) : ¬ (0x30A1 ≤ k2hC b ∧ k2hC b ≤ 0x30F6) := by
  unfold k2hC KATAKANA_START KATAKANA_END KATAKANA_OFFSET
  split_ifs <;> omega

/-- Every character produced by the lowercase→width→kana pipeline is either
whitespace, clean, or a symbol that `removeSymbols` will blank out. -/
theorem pipe_char (a : Nat) :
    jsWs (k2hC (f2hC (lowC a))) = true ∨ CleanChar (k2hC (f2hC (lowC a))) ∨
      keepC (k2hC (f2hC (lowC a))) = false := by
  set c := k2hC (f2hC (lowC a)) with hc
  by_cases hw : jsWs c = true
  · exact Or.inl hw
  by_cases hk : keepC c = true
  · refine Or.inr (Or.inl ?_)
    have hup : ¬ (0x41 ≤ c ∧ c ≤ 0x5A) := by
      rw [hc]
      exact k2hC_no_upper (f2hC_no_upper (lowC_no_upper a).1 (lowC_no_upper a).2)
    have hkata : ¬ (0x30A1 ≤ c ∧ c ≤ 0x30F6) := hc ▸ k2hC_not_kata (f2hC (lowC a))
    rw [keepC_iff] at hk
    rcases hk with h | h | h | h | h | h | h | h
    · unfold CleanChar; omega
    · exact absurd h hup
    · unfold CleanChar; omega
    · unfold CleanChar; omega
    · exact absurd h hw
    · unfold CleanChar; omega
    · unfold CleanChar; omega
    · unfold CleanChar; omega
  · exact Or.inr (Or.inr (by simpa using hk))

end TextNormalizer

namespace TextNormalizer
theorem cw_head_nonws {d : Nat} (r : Str) (hd : jsWs d = false) (b : Bool) :
    cw b (d :: r) = d :: cw false r := by
  simp only [cw, hd]
  simp

theorem cw_ws_false {c : Nat} (r : Str) (hc : jsWs c = true) :
    cw false (c :: r) = 0x20 :: cw true r := by
  simp [cw, hc]

theorem cw_ws_true {c : Nat} (r : Str) (hc : jsWs c = true) :
    cw true (c :: r) = cw true r := by
  simp [cw, hc]

theorem okW_cons_nonws {c : Nat} {r : Str} (hc : jsWs c = false) :
    okW (c :: r) = okW r := by
  cases r with
  | nil => simp [okW, hc]
  | cons d r' => simp [okW, hc]

theorem okW_cons_ws {c : Nat} {d : Nat} {r : Str} (hc : jsWs c = true)
    (h : okW (c :: d :: r) = true) :
    c = 0x20 ∧ jsWs d = false ∧ okW r = true := by
  unfold okW at h
  rw [hc] at h
  simp at h
  exact ⟨h.1, h.2.1, h.2.2⟩

theorem okW_ws_no_nil {c : Nat} (hc : jsWs c = true) :
    okW [c] = false := by
  unfold okW
  rw [hc]
  simp

theorem cw_fix : ∀ t : Str, okW t = true → cw false t = t := by
  intro t
  induction t with
  | nil => intro _; rfl
  | cons c r ih =>
      intro h
      by_cases hc : jsWs c = true
      · match r with
        | [] => exact absurd h (by rw [okW_ws_no_nil hc]; simp)
        | d :: r' =>
            obtain ⟨hc20, hd, hr'⟩ := okW_cons_ws hc h
            have hr : okW (d :: r') = true := by
              rw [okW_cons_nonws hd]; exact hr'
            have h1 : cw false (d :: r') = d :: r' := ih hr
            rw [cw_head_nonws r' hd false] at h1
            have h2 : cw false r' = r' := by injection h1
            rw [cw_ws_false _ hc, cw_head_nonws r' hd true, h2, hc20]
      · have hcf : jsWs c = false := by simpa using hc
        rw [okW_cons_nonws hcf] at h
        rw [cw_head_nonws r hcf false, ih h]

theorem trimL_fix {t : Str} (h : headNonWs t = true) : trimL t = t := by
  cases t with
  | nil => rfl
  | cons c r =>
      unfold headNonWs at h
      simp at h
      unfold trimL
      rw [List.dropWhile_cons, h]
      simp

theorem trimR_fix : ∀ t : Str, okW t = true → trimR t = t := by
  intro t
  induction t with
  | nil => intro _; rfl
  | cons c r ih =>
      intro h
      by_cases hc : jsWs c = true
      · match r with
        | [] => exact absurd h (by rw [okW_ws_no_nil hc]; simp)
        | d :: r' =>
            obtain ⟨hc20, hd, hr'⟩ := okW_cons_ws hc h
            have hr : okW (d :: r') = true := by
              rw [okW_cons_nonws hd]; exact hr'
            have h2 := ih hr
            unfold trimR
            rw [h2]
      · have hcf : jsWs c = false := by simpa using hc
        rw [okW_cons_nonws hcf] at h
        have h2 := ih h
        unfold trimR
        rw [h2]
        cases r with
        | nil => rw [hcf]; simp
        | cons d r' => rfl

theorem okA_fix {t : Str} (h1 : headNonWs t = true) (h2 : okW t = true) :
    collapseTrim t = t := by
  unfold collapseTrim jsTrim
  rw [cw_fix t h2, trimL_fix h1, trimR_fix t h2]

theorem spaced_cons {x : Nat} {t : Str}
    (h1 : jsWs x = false ∨ (x = 0x20 ∧ headNonWs t = true))
    (h2 : spaced t = true) : spaced (x :: t) = true := by
  cases t with
  | nil =>
      unfold spaced
      rcases h1 with h | ⟨h, _⟩
      · simp [h]
      · simp [h]
  | cons d r =>
      unfold spaced
      rcases h1 with h | ⟨h, hh⟩
      · simp [h, h2]
      · unfold headNonWs at hh
        simp at hh
        simp [h, hh, h2]

theorem spaced_tail {x : Nat} {t : Str} (h : spaced (x :: t) = true) :
    spaced t = true := by
  cases t with
  | nil => rfl
  | cons d r =>
      unfold spaced at h
      simp at h
      exact h.2

theorem spaced_ws_head {x : Nat} {t : Str} (h : spaced (x :: t) = true)
    (hx : jsWs x = true) : x = 0x20 ∧ headNonWs t = true := by
  cases t with
  | nil =>
      unfold spaced at h
      rw [hx] at h
      simp at h
      exact ⟨h, rfl⟩
  | cons d r =>
      unfold spaced at h
      rw [hx] at h
      simp at h
      refine ⟨h.1.1, ?_⟩
      unfold headNonWs
      simp [h.1.2]

theorem cw_spaced : ∀ s : Str,
    spaced (cw false s) = true ∧ spaced (cw true s) = true ∧
      headNonWs (cw true s) = true := by
  intro s
  induction s with
  | nil => exact ⟨rfl, rfl, rfl⟩
  | cons c r ih =>
      by_cases hc : jsWs c = true
      · have e1 : cw false (c :: r) = 0x20 :: cw true r := cw_ws_false r hc
        have e2 : cw true (c :: r) = cw true r := cw_ws_true r hc
        refine ⟨?_, ?_, ?_⟩
        · rw [e1]
          exact spaced_cons (Or.inr ⟨rfl, ih.2.2⟩) ih.2.1
        · rw [e2]; exact ih.2.1
        · rw [e2]; exact ih.2.2
      · have hcf : jsWs c = false := by simpa using hc
        have e1 : cw false (c :: r) = c :: cw false r := cw_head_nonws r hcf false
        have e2 : cw true (c :: r) = c :: cw false r := cw_head_nonws r hcf true
        refine ⟨?_, ?_, ?_⟩
        · rw [e1]; exact spaced_cons (Or.inl hcf) ih.1
        · rw [e2]; exact spaced_cons (Or.inl hcf) ih.1
        · rw [e2]; unfold headNonWs; simp [hcf]

theorem trimL_spaced {t : Str} (h : spaced t = true) :
    spaced (trimL t) = true ∧ headNonWs (trimL t) = true := by
  cases t with
  | nil => exact ⟨rfl, rfl⟩
  | cons c r =>
      by_cases hc : jsWs c = true
      · obtain ⟨hc20, hh⟩ := spaced_ws_head h hc
        have e : trimL (c :: r) = trimL r := by
          unfold trimL
          rw [List.dropWhile_cons, hc]
          simp
        rw [e]
        cases r with
        | nil => exact ⟨rfl, rfl⟩
        | cons d r' =>
            unfold headNonWs at hh
            simp at hh
            have e2 : trimL (d :: r') = d :: r' := by
              unfold trimL
              rw [List.dropWhile_cons, hh]
              simp
            rw [e2]
            refine ⟨spaced_tail h, ?_⟩
            unfold headNonWs
            simp [hh]
      · have hcf : jsWs c = false := by simpa using hc
        have e : trimL (c :: r) = c :: r := by
          unfold trimL
          rw [List.dropWhile_cons, hcf]
          simp
        rw [e]
        refine ⟨h, ?_⟩
        unfold headNonWs
        simp [hcf]

theorem trimR_spaced : ∀ t : Str, spaced t = true →
    spaced (trimR t) = true ∧ (headNonWs t = true → headNonWs (trimR t) = true) ∧
      noTrailB (trimR t) = true := by
  intro t
  induction t with
  | nil => exact fun _ => ⟨rfl, fun _ => rfl, rfl⟩
  | cons c r ih =>
      intro h
      obtain ⟨ihs, ihh, ihn⟩ := ih (spaced_tail h)
      cases hrt : trimR r with
      | nil =>
          have et : trimR (c :: r) = if jsWs c = true then [] else [c] := by
            simp [trimR, hrt]
          rw [et]
          by_cases hc : jsWs c = true
          · rw [if_pos hc]
            exact ⟨rfl, fun _ => rfl, rfl⟩
          · have hcf : jsWs c = false := by simpa using hc
            rw [if_neg hc]
            refine ⟨?_, fun _ => ?_, ?_⟩
            · simp [spaced, hcf]
            · simp [headNonWs, hcf]
            · simp [noTrailB, hcf]
      | cons e r' =>
          have et : trimR (c :: r) = c :: e :: r' := by
            unfold trimR
            rw [hrt]
          rw [et]
          have hsp : spaced (trimR r) = true := ihs
          rw [hrt] at hsp
          have hrne : r ≠ [] := by
            intro he
            rw [he] at hrt
            simp [trimR] at hrt
          obtain ⟨d, r0, hr⟩ : ∃ d r0, r = d :: r0 := by
            cases r with
            | nil => exact absurd rfl hrne
            | cons d r0 => exact ⟨d, r0, rfl⟩
          refine ⟨?_, fun hh => ?_, ?_⟩
          · apply spaced_cons ?_ hsp
            by_cases hc : jsWs c = true
            · obtain ⟨hc20, hhd⟩ := spaced_ws_head h hc
              refine Or.inr ⟨hc20, ?_⟩
              rw [hr] at hhd
              unfold headNonWs at hhd
              simp at hhd
              have : headNonWs (trimR r) = true := by
                apply ihh
                rw [hr]
                unfold headNonWs
                simp [hhd]
              rw [hrt] at this
              exact this
            · exact Or.inl (by simpa using hc)
          · unfold headNonWs at hh ⊢
            exact hh
          · unfold noTrailB
            have : noTrailB (e :: r') = true := by rw [← hrt]; exact ihn
            exact this

theorem okW_of_spaced : ∀ t : Str, spaced t = true → noTrailB t = true →
    okW t = true := by
  intro t
  induction t with
  | nil => exact fun _ _ => rfl
  | cons c r ih =>
      intro hs hn
      by_cases hc : jsWs c = true
      · obtain ⟨hc20, hh⟩ := spaced_ws_head hs hc
        cases r with
        | nil =>
            unfold noTrailB at hn
            rw [hc] at hn
            simp at hn
        | cons d r' =>
            unfold headNonWs at hh
            simp at hh
            unfold okW
            rw [hc]
            simp [hc20, hh]
            have hok : okW (d :: r') = true := by
              apply ih (spaced_tail hs)
              unfold noTrailB at hn
              exact hn
            rw [okW_cons_nonws hh] at hok
            exact hok
      · have hcf : jsWs c = false := by simpa using hc
        rw [okW_cons_nonws hcf]
        apply ih (spaced_tail hs)
        cases r with
        | nil => rfl
        | cons d r' =>
            unfold noTrailB at hn
            exact hn

theorem collapseTrim_ok (s : Str) :
    headNonWs (collapseTrim s) = true ∧ okW (collapseTrim s) = true := by
  unfold collapseTrim jsTrim
  obtain ⟨h0, _, _⟩ := cw_spaced s
  obtain ⟨h1, h1h⟩ := trimL_spaced h0
  obtain ⟨h2, h2h, h2n⟩ := trimR_spaced _ h1
  exact ⟨h2h h1h, okW_of_spaced _ h2 h2n⟩

/-- `replace(/\s+/g, ' ').trim()` is idempotent. -/
theorem collapseTrim_idem (s : Str) :
    collapseTrim (collapseTrim s) = collapseTrim s := by
  obtain ⟨h1, h2⟩ := collapseTrim_ok s
  exact okA_fix h1 h2

end TextNormalizer

namespace TextNormalizer

theorem mem_cw {c' : Nat} : ∀ (b : Bool) (s : Str), c' ∈ cw b s →
    c' = 0x20 ∨ (c' ∈ s ∧ jsWs c' = false) := by
  intro b s
  induction s generalizing b with
  | nil => intro h; cases h
  | cons c r ih =>
      intro h
      by_cases hc : jsWs c = true
      · cases b with
        | true =>
            rw [cw_ws_true r hc] at h
            rcases ih true h with h20 | ⟨hm, hw⟩
            · exact Or.inl h20
            · exact Or.inr ⟨List.mem_cons_of_mem _ hm, hw⟩
        | false =>
            rw [cw_ws_false r hc] at h
            rcases List.mem_cons.mp h with h20 | h'
            · exact Or.inl h20
            · rcases ih true h' with h20 | ⟨hm, hw⟩
              · exact Or.inl h20
              · exact Or.inr ⟨List.mem_cons_of_mem _ hm, hw⟩
      · have hcf : jsWs c = false := by simpa using hc
        rw [cw_head_nonws r hcf b] at h
        rcases List.mem_cons.mp h with he | h'
        · exact Or.inr ⟨List.mem_cons.mpr (Or.inl he), he ▸ hcf⟩
        · rcases ih false h' with h20 | ⟨hm, hw⟩
          · exact Or.inl h20
          · exact Or.inr ⟨List.mem_cons_of_mem _ hm, hw⟩

theorem trimR_sublist : ∀ s : Str, List.Sublist (trimR s) s := by
  intro s
  induction s with
  | nil => exact List.Sublist.refl []
  | cons c r ih =>
      cases hrt : trimR r with
      | nil =>
          have et : trimR (c :: r) = if jsWs c = true then [] else [c] := by
            simp [trimR, hrt]
          rw [et]
          split_ifs
          · exact List.nil_sublist _
          · exact List.cons_sublist_cons.mpr (List.nil_sublist r)
      | cons e r' =>
          have et : trimR (c :: r) = c :: e :: r' := by simp [trimR, hrt]
          rw [et]
          rw [hrt] at ih
          exact List.cons_sublist_cons.mpr ih

theorem mem_collapseTrim {c' : Nat} {s : Str} (h : c' ∈ collapseTrim s) :
    c' = 0x20 ∨ (c' ∈ s ∧ jsWs c' = false) := by
  unfold collapseTrim jsTrim at h
  have h1 : c' ∈ trimL (cw false s) := (trimR_sublist _).subset h
  have h2 : c' ∈ cw false s := (List.dropWhile_sublist _).subset h1
  exact mem_cw false s h2

theorem map_fix {f : Nat → Nat} {l : Str} (h : ∀ c ∈ l, f c = c) :
    l.map f = l :=
  (List.map_congr_left h).trans (List.map_id l)

theorem nfs_eq (t : Str) :
    normalizeForSearch t =
      collapseTrim (removeSymbols (katakanaToHiragana
        (fullwidthToHalfwidth (lowerStr t)))) := rfl

theorem nfs_chars {c' : Nat} {x : Str} (h : c' ∈ normalizeForSearch x) :
    c' = 0x20 ∨ CleanChar c' := by
  rw [nfs_eq] at h
  rcases mem_collapseTrim h with h20 | ⟨hm, hws⟩
  · exact Or.inl h20
  · simp only [removeSymbols, katakanaToHiragana, fullwidthToHalfwidth,
      lowerStr, List.map_map, List.mem_map, Function.comp] at hm
    obtain ⟨a, _, ha⟩ := hm
    by_cases hk : keepC (k2hC (f2hC (lowC a))) = true
    · have he : c' = k2hC (f2hC (lowC a)) := by
        rw [← ha]
        unfold rsC
        rw [hk]
        simp
      rcases pipe_char a with hw | hcl | hnk
      · rw [he, hw] at hws; cases hws
      · exact Or.inr (he ▸ hcl)
      · rw [hnk] at hk; cases hk
    · have he : c' = 0x20 := by
        rw [← ha]
        unfold rsC
        rw [if_neg hk]
      exact Or.inl he

theorem nfs_fix_chars {x : Str} :
    ∀ c' ∈ normalizeForSearch x,
      lowC c' = c' ∧ f2hC c' = c' ∧ k2hC c' = c' ∧ rsC c' = c' := by
  intro c' h
  rcases nfs_chars h with h20 | hcl
  · subst h20
    exact ⟨lowC_space, f2hC_space, k2hC_space, rsC_space⟩
  · exact ⟨lowC_clean hcl, f2hC_clean hcl, k2hC_clean hcl, rsC_clean hcl⟩

end TextNormalizer

/-- C6: `normalizeForSearch` is idempotent: applying it twice gives the same
string as applying it once, for every input string. -/
theorem C6_normalizeForSearch_idempotent :
    ∀ x : Str,
      TextNormalizer.normalizeForSearch (TextNormalizer.normalizeForSearch x) =
        TextNormalizer.normalizeForSearch x := by
  intro x
  rw [TextNormalizer.nfs_eq (TextNormalizer.normalizeForSearch x)]
  have hl : lowerStr (TextNormalizer.normalizeForSearch x) =
      TextNormalizer.normalizeForSearch x :=
    TextNormalizer.map_fix fun c h => (TextNormalizer.nfs_fix_chars c h).1
  have hf : TextNormalizer.fullwidthToHalfwidth
      (TextNormalizer.normalizeForSearch x) = TextNormalizer.normalizeForSearch x :=
    TextNormalizer.map_fix fun c h => (TextNormalizer.nfs_fix_chars c h).2.1
  have hk : TextNormalizer.katakanaToHiragana
      (TextNormalizer.normalizeForSearch x) = TextNormalizer.normalizeForSearch x :=
    TextNormalizer.map_fix fun c h => (TextNormalizer.nfs_fix_chars c h).2.2.1
  have hr : TextNormalizer.removeSymbols
      (TextNormalizer.normalizeForSearch x) = TextNormalizer.normalizeForSearch x :=
    TextNormalizer.map_fix fun c h => (TextNormalizer.nfs_fix_chars c h).2.2.2
  rw [show lowerStr (TextNormalizer.normalizeForSearch x) =
      TextNormalizer.normalizeForSearch x from hl, hf, hk, hr,
    TextNormalizer.nfs_eq x]
  exact TextNormalizer.collapseTrim_idem _

section FuzzyChecks

example : FuzzySearch.levenshteinDistance [0x61, 0x62, 0x63] [0x61, 0x64, 0x63] = 1 := by
  decide

example : FuzzySearch.levenshteinDistance [0x6B, 0x69, 0x74, 0x74, 0x65, 0x6E]
    [0x73, 0x69, 0x74, 0x74, 0x69, 0x6E, 0x67] = 3 := by decide

example : FuzzySearch.levenshteinDistance [] [0x61, 0x62] = 2 := by decide

example : FuzzySearch.calculateSimilarity [] [] = 1 := by decide

example : (FuzzySearch.fmatch [0x61, 0x62, 0x63] [0x61, 0x62, 0x63] {}).matched = true := by
  with_unfolding_all decide

example : (FuzzySearch.partialMatch [0x61, 0x62] [0x78, 0x61, 0x62, 0x79] {}).score = 1 := by
  with_unfolding_all decide

example :
    FuzzySearch.generateHighlight 100 [0x61, 0x62] [0x7A, 0x61, 0x62, 0x7A] {} =
      some ⟨[0x7A, 0x61, 0x62, 0x7A], [⟨1, 3, 1⟩]⟩ := by with_unfolding_all decide

end FuzzyChecks

section EngineChecks

example :
    (SearchEngine.enhancedTextSearch 100
        [⟨1, [0x61, 0x62, 0x63], [], none, none, [], none⟩]
        { query := [0x62] }).isSome = true := by with_unfolding_all decide

example :
    SearchEngine.enhancedTagSearch
        [⟨1, [], [[0x61, 0x69]], none, none, [], none⟩]
        { query := [0x61, 0x69], mode := SearchEngine.TagMode.any } =
      [⟨⟨1, [], [[0x61, 0x69]], none, none, [], none⟩, 1, [], 0,
        [SearchEngine.FieldName.tags]⟩] := by with_unfolding_all decide

end EngineChecks

section ParserChecks

example :
    (SearchEngine.parseComplexQuery
        [0x74, 0x61, 0x67, 0x3A, 0x61, 0x69, 0x20, 0x66, 0x6F, 0x6F]).fieldQueries =
      [(SearchEngine.QueryField.tag, [0x61, 0x69])] := by with_unfolding_all decide

example :
    (SearchEngine.parseComplexQuery
        [0x74, 0x61, 0x67, 0x3A, 0x61, 0x69, 0x20, 0x66, 0x6F, 0x6F]).terms =
      [[0x66, 0x6F, 0x6F]] := by with_unfolding_all decide

example :
    (SearchEngine.parseComplexQuery [0x61, 0x20, 0x41, 0x4E, 0x44, 0x20, 0x62]).operators =
      [(SearchEngine.OpType.AND, 2)] := by with_unfolding_all decide

example :
    (SearchEngine.parseComplexQuery [0x61, 0x20, 0x41, 0x4E, 0x44, 0x20, 0x62]).terms =
      [[0x61], [0x62]] := by with_unfolding_all decide

end ParserChecks

/-! ## Sorting and membership helpers -/

theorem mem_insertPrec {α : Type} (prec : α → α → Bool) (x a : α) :
    ∀ l : List α, a ∈ FuzzySearch.insertPrec prec x l ↔ a = x ∨ a ∈ l := by
  intro l
  induction l with
  | nil => simp [FuzzySearch.insertPrec]
  | cons y ys ih =>
      by_cases hp : prec y x = true
      · simp only [FuzzySearch.insertPrec, hp, if_true, List.mem_cons, ih]
        tauto
      · have : prec y x = false := by simpa using hp
        simp only [FuzzySearch.insertPrec, this, Bool.false_eq_true, if_false,
          List.mem_cons]

theorem mem_sortPrec {α : Type} (prec : α → α → Bool) (a : α) :
    ∀ l : List α, a ∈ FuzzySearch.sortPrec prec l ↔ a ∈ l := by
  intro l
  induction l with
  | nil => simp [FuzzySearch.sortPrec]
  | cons x xs ih =>
      simp only [FuzzySearch.sortPrec, mem_insertPrec, ih, List.mem_cons]

/-- C10: with `includeScore = false`, `FuzzySearch.match` reports `score = 0`
regardless of the computed similarity, while `matched` and `distance` are
computed exactly as with `includeScore = true`; consequently there are
inputs where the result has `matched = true` together with `score = 0`. -/
theorem C10_includeScore_zero_score :
    (∀ (q t : Str) (o : FuzzySearch.FuzzySearchOptions),
        o.includeScore = some false →
          (FuzzySearch.fmatch q t o).score = 0 ∧
          (FuzzySearch.fmatch q t o).matched =
            (FuzzySearch.fmatch q t { o with includeScore := some true }).matched ∧
          (FuzzySearch.fmatch q t o).distance =
            (FuzzySearch.fmatch q t { o with includeScore := some true }).distance) ∧
    ((FuzzySearch.fmatch [0x61] [0x61] { includeScore := some false }).matched = true ∧
      (FuzzySearch.fmatch [0x61] [0x61] { includeScore := some false }).score = 0) := by
  constructor
  · intro q t o h
    refine ⟨?_, ?_, ?_⟩ <;> simp [FuzzySearch.fmatch, h]
  · constructor
    · with_unfolding_all decide
    · with_unfolding_all decide

/-- Witness for C10 at a concrete option record. -/
theorem C10_includeScore_zero_score_witness :
    (FuzzySearch.fmatch [0x62] [0x62] { includeScore := some false }).score = 0 ∧
      (FuzzySearch.fmatch [0x62] [0x62] { includeScore := some false }).matched =
        (FuzzySearch.fmatch [0x62] [0x62]
          { includeScore := some true }).matched := by
  have h := C10_includeScore_zero_score.1 [0x62] [0x62]
    { includeScore := some false } rfl
  exact ⟨h.1, h.2.1⟩

namespace TextNormalizer

theorem fwMap_values_not_fwupper :
    ∀ p ∈ FULLWIDTH_CHAR_MAP, ¬ (0xFF21 ≤ p.2 ∧ p.2 ≤ 0xFF3A) := by decide

theorem f2hC_no_fwupper {b : Nat} (h : ¬ (0xFF21 ≤ b ∧ b ≤ 0xFF3A)) :
    ¬ (0xFF21 ≤ f2hC b ∧ f2hC b ≤ 0xFF3A) := by
  unfold f2hC
  cases hl : FULLWIDTH_CHAR_MAP.lookup b with
  | none => simpa using h
  | some v =>
      intro hv
      exact fwMap_values_not_fwupper (b, v) (lookup_mem hl) hv

theorem k2hC_no_fwupper {b : Nat} (h : ¬ (0xFF21 ≤ b ∧ b ≤ 0xFF3A)) :
    ¬ (0xFF21 ≤ k2hC b ∧ k2hC b ≤ 0xFF3A) := by
  unfold k2hC KATAKANA_START KATAKANA_END KATAKANA_OFFSET
  split_ifs <;> omega

theorem lowC_fix_of_not_upper {c : Nat} (h5 : ¬ (0x41 ≤ c ∧ c ≤ 0x5A))
    (h6 : ¬ (0xFF21 ≤ c ∧ c ≤ 0xFF3A)) : lowC c = c := by
  unfold lowC
  split_ifs <;> omega

/-- Characters coming out of the lowercase→width→kana pipeline are fixed by
a second lowercasing. -/
theorem pipe_lowC_fix (a : Nat) :
    lowC (k2hC (f2hC (lowC a))) = k2hC (f2hC (lowC a)) := by
  have h1 := (lowC_no_upper a).1
  have h2 := (lowC_no_upper a).2
  exact lowC_fix_of_not_upper (k2hC_no_upper (f2hC_no_upper h1 h2))
    (k2hC_no_fwupper (f2hC_no_fwupper h2))

theorem npm_eq (t : Str) :
    normalizeForPartialMatch t =
      collapseTrim (katakanaToHiragana (fullwidthToHalfwidth (lowerStr t))) := rfl

/-- The output of `normalizeForPartialMatch` is already lowercase, so the
subsequent `toLowerCase` in `partialMatch` is the identity. -/
theorem lower_npm (x : Str) :
    lowerStr (normalizeForPartialMatch x) = normalizeForPartialMatch x := by
  apply map_fix
  intro c h
  rw [npm_eq] at h
  rcases mem_collapseTrim h with h20 | ⟨hm, _⟩
  · subst h20
    exact lowC_space
  · simp only [katakanaToHiragana, fullwidthToHalfwidth, lowerStr,
      List.map_map, List.mem_map, Function.comp] at hm
    obtain ⟨a, _, ha⟩ := hm
    rw [← ha]
    exact pipe_lowC_fix a

end TextNormalizer

/-- C3: with default options, whenever the partial-match normalization of
the target contains that of the query as a substring, `partialMatch`
returns the perfect result `score = 1.0`, `distance = 0`, `matched = true`
(the containment branch, taken before any edit-distance computation). -/
theorem C3_partialMatch_containment (q t : Str)
    (h : TextNormalizer.normalizeForPartialMatch q <:+:
      TextNormalizer.normalizeForPartialMatch t) :
    FuzzySearch.partialMatch q t {} =
      { text := t, score := 1, distance := (0 : Nat), matched := true } := by
  have key : strIncludes
      (lowerStr (TextNormalizer.normalizeForPartialMatch t))
      (lowerStr (TextNormalizer.normalizeForPartialMatch q)) = true := by
    rw [TextNormalizer.lower_npm, TextNormalizer.lower_npm]
    exact decide_eq_true h
  simp [FuzzySearch.partialMatch, key]

/-- Witness for C3: query "a" inside target "xa". -/
theorem C3_partialMatch_containment_witness :
    FuzzySearch.partialMatch [0x61] [0x78, 0x61] {} =
      { text := [0x78, 0x61], score := 1, distance := (0 : Nat), matched := true } :=
  C3_partialMatch_containment [0x61] [0x78, 0x61] (by with_unfolding_all decide)

namespace FuzzySearch

/-- With an empty pattern, `indexOf` always succeeds (clamped), so the
exact-occurrence loop of `generateHighlight` never reaches its break: it
consumes any amount of fuel without producing a result. -/
theorem collectExactGo_nil_pat : ∀ (fuel : Nat) (ntext : Str) (start : Nat)
    (acc : List Span), collectExactGo fuel ntext [] start acc = none := by
  intro fuel
  induction fuel with
  | zero => intro ntext start acc; rfl
  | succ n ih =>
      intro ntext start acc
      simp only [collectExactGo, jsIndexOf, if_pos rfl]
      exact ih ntext _ _

/-- Likewise for the word loop. -/
theorem collectWordGo_nil_pat : ∀ (fuel : Nat) (ntext : Str) (start : Nat)
    (acc : List Span), collectWordGo fuel ntext [] start acc = none := by
  intro fuel
  induction fuel with
  | zero => intro ntext start acc; rfl
  | succ n ih =>
      intro ntext start acc
      simp only [collectWordGo, jsIndexOf, if_pos rfl]
      exact ih ntext _ _

end FuzzySearch

/-- C2 (recording the code bug): contrary to the specification's "every
operation terminates and returns a defined no-match result",
`generateHighlight` with an empty query never terminates — its `while
(true)` loop never sees `indexOf` return `-1` for the empty pattern, so no
amount of fuel produces a result — and `multiQueryOrMatch` on an empty
query list does not return a value (`reduce` of an empty array with no
initial value throws a `TypeError`). -/
theorem C2_degenerate_inputs_diverge :
    (∀ (fuel : Nat) (t : Str) (o : FuzzySearch.FuzzySearchOptions),
        FuzzySearch.generateHighlight fuel [] t o = none) ∧
    (∀ (t : Str) (o : FuzzySearch.FuzzySearchOptions),
        FuzzySearch.multiQueryOrMatch [] t o = none) := by
  constructor
  · intro fuel t o
    have hq : (if o.caseSensitive.getD false then
        (if o.normalizeText.getD true then
          TextNormalizer.normalizeForPartialMatch [] else ([] : Str))
        else lowerStr (if o.normalizeText.getD true then
          TextNormalizer.normalizeForPartialMatch [] else ([] : Str))) = ([] : Str) := by
      cases o.normalizeText.getD true <;> cases o.caseSensitive.getD false <;> rfl
    simp only [FuzzySearch.generateHighlight, hq,
      FuzzySearch.collectExactGo_nil_pat]
  · intro t o
    rfl

namespace FuzzySearch
theorem scanFrom_some (text pat : Str) :
    ∀ n p i, text.length + 1 - p ≤ n → scanFrom text pat p = some i →
      p ≤ i ∧ i + pat.length ≤ text.length := by
  intro n
  induction n with
  | zero =>
      intro p i hn h
      rw [scanFrom] at h
      split at h
      · cases h
      · rename_i hguard
        simp at hguard
        omega
  | succ n ih =>
      intro p i hn h
      rw [scanFrom] at h
      split at h
      · cases h
      · rename_i hguard
        simp at hguard
        split at h
        · injection h with he
          subst he
          exact ⟨le_refl p, hguard⟩
        · have := ih (p + 1) i (by omega) h
          exact ⟨by omega, this.2⟩

theorem jsIndexOf_some {text pat : Str} {start i : Nat} (hp : pat ≠ [])
    (h : jsIndexOf text pat start = some i) :
    start ≤ i ∧ i + pat.length ≤ text.length := by
  unfold jsIndexOf at h
  rw [if_neg hp] at h
  exact scanFrom_some text pat (text.length + 1 - start) start i (le_refl _) h

theorem collectExactGo_spec (ntext nq : Str) (hq : nq ≠ []) :
    ∀ (fuel start : Nat) (acc res : List Span),
      collectExactGo fuel ntext nq start acc = some res →
      (∀ sp ∈ acc, SpanOk ntext.length sp) →
      ∀ sp ∈ res, SpanOk ntext.length sp := by
  intro fuel
  induction fuel with
  | zero => intro start acc res h _; cases h
  | succ n ih =>
      intro start acc res h hacc
      simp only [collectExactGo] at h
      cases hidx : jsIndexOf ntext nq start with
      | none =>
          rw [hidx] at h
          simp at h
          subst h
          exact hacc
      | some i =>
          rw [hidx] at h
          have hb := jsIndexOf_some hq hidx
          apply ih _ _ _ h
          intro sp hsp
          rcases List.mem_append.mp hsp with h1 | h2
          · exact hacc sp h1
          · simp at h2
            subst h2
            refine ⟨?_, hb.2, Or.inl rfl⟩
            show i < i + nq.length
            have := List.length_pos.mpr hq
            omega

theorem collectWordGo_spec (ntext w : Str) (hw : w ≠ []) :
    ∀ (fuel start : Nat) (acc res : List Span),
      collectWordGo fuel ntext w start acc = some res →
      (∀ sp ∈ acc, SpanOk ntext.length sp) →
      ∀ sp ∈ res, SpanOk ntext.length sp := by
  intro fuel
  induction fuel with
  | zero => intro start acc res h _; cases h
  | succ n ih =>
      intro start acc res h hacc
      simp only [collectWordGo] at h
      cases hidx : jsIndexOf ntext w start with
      | none =>
          rw [hidx] at h
          simp at h
          subst h
          exact hacc
      | some i =>
          rw [hidx] at h
          have hb := jsIndexOf_some hw hidx
          apply ih _ _ _ h
          intro sp hsp
          by_cases hov : (acc.any fun hsp' =>
              decide (i < hsp'.stop) && decide (hsp'.start < i + w.length)) = true
          · rw [if_pos hov] at hsp
            exact hacc sp hsp
          · rw [if_neg hov] at hsp
            rcases List.mem_append.mp hsp with h1 | h2
            · exact hacc sp h1
            · simp at h2
              subst h2
              refine ⟨?_, hb.2, Or.inr rfl⟩
              show i < i + w.length
              have := List.length_pos.mpr hw
              omega

theorem wordsFold_spec (ntext : Str) (fuel : Nat) :
    ∀ (ws : List Str) (acc res : List Span),
      wordsFold fuel ntext ws acc = some res →
      (∀ sp ∈ acc, SpanOk ntext.length sp) →
      ∀ sp ∈ res, SpanOk ntext.length sp := by
  intro ws
  induction ws with
  | nil =>
      intro acc res h hacc
      simp only [wordsFold] at h
      cases h
      exact hacc
  | cons w ws ih =>
      intro acc res h hacc
      simp only [wordsFold] at h
      cases hcw : collectWordGo fuel ntext w 0 acc with
      | none => rw [hcw] at h; cases h
      | some acc' =>
          rw [hcw] at h
          by_cases hw : w = []
          · subst hw
            rw [collectWordGo_nil_pat] at hcw
            cases hcw
          · exact ih acc' res h (collectWordGo_spec ntext w hw fuel 0 acc acc' hcw hacc)

/-- `generateHighlight` unfolded against `normalizedHighlightText`. -/
theorem generateHighlight_eq (fuel : Nat) (q t : Str) (o : FuzzySearchOptions) :
    generateHighlight fuel q t o =
      match collectExactGo fuel (normalizedHighlightText t o)
          (normalizedHighlightText q o) 0 [] with
      | none => none
      | some spans1 =>
          match wordsFold fuel (normalizedHighlightText t o)
              (splitWs (normalizedHighlightText q o)) spans1 with
          | none => none
          | some spans2 =>
              some ⟨t, sortPrec (fun a b => decide (a.start < b.start)) spans2⟩ := rfl

end FuzzySearch

namespace TextNormalizer

theorem cw_length_le : ∀ (b : Bool) (s : Str), (cw b s).length ≤ s.length := by
  intro b s
  induction s generalizing b with
  | nil => exact Nat.le_refl 0
  | cons c r ih =>
      by_cases hc : jsWs c = true
      · cases b with
        | true =>
            rw [cw_ws_true r hc]
            exact Nat.le_succ_of_le (ih true)
        | false =>
            rw [cw_ws_false r hc]
            simpa using ih true
      · have hcf : jsWs c = false := by simpa using hc
        rw [cw_head_nonws r hcf b]
        simpa using ih false

theorem collapseTrim_length_le (s : Str) : (collapseTrim s).length ≤ s.length := by
  unfold collapseTrim jsTrim
  calc (trimR (trimL (cw false s))).length
      ≤ (trimL (cw false s)).length := (trimR_sublist _).length_le
    _ ≤ (cw false s).length := (List.dropWhile_sublist _).length_le
    _ ≤ s.length := cw_length_le false s

theorem npm_length_le (t : Str) :
    (normalizeForPartialMatch t).length ≤ t.length := by
  rw [npm_eq]
  calc (collapseTrim (katakanaToHiragana (fullwidthToHalfwidth (lowerStr t)))).length
      ≤ (katakanaToHiragana (fullwidthToHalfwidth (lowerStr t))).length :=
        collapseTrim_length_le _
    _ = t.length := by
        simp [katakanaToHiragana, fullwidthToHalfwidth, lowerStr]

theorem normalizedHighlightText_length_le (t : Str) (o : FuzzySearch.FuzzySearchOptions) :
    (FuzzySearch.normalizedHighlightText t o).length ≤ t.length := by
  unfold FuzzySearch.normalizedHighlightText
  cases o.normalizeText.getD true <;> cases o.caseSensitive.getD false <;>
    simp [lowerStr, npm_length_le]

end TextNormalizer

/-- C5, amended: every span returned by `generateHighlight` satisfies
`0 ≤ start < end ≤ length (normalized text) ≤ length (original text)` and
has score 1.0 or 0.8 (hence in `[0, 1]`) — but the offsets address the
*normalized* text, not the original one (see the counterexample). -/
theorem C5_highlight_span_invariant (fuel : Nat) (q t : Str)
    (o : FuzzySearch.FuzzySearchOptions) (r : FuzzySearch.HighlightResult)
    (h : FuzzySearch.generateHighlight fuel q t o = some r) :
    ∀ sp ∈ r.highlighted,
      sp.start < sp.stop ∧
      sp.stop ≤ (FuzzySearch.normalizedHighlightText t o).length ∧
      (FuzzySearch.normalizedHighlightText t o).length ≤ t.length ∧
      0 ≤ sp.score ∧ sp.score ≤ 1 := by
  intro sp hsp
  rw [FuzzySearch.generateHighlight_eq] at h
  split at h
  · cases h
  · rename_i spans1 hce
    split at h
    · cases h
    · rename_i spans2 hwf
      injection h with h
      subst h
      have hq : FuzzySearch.normalizedHighlightText q o ≠ [] := by
        intro he
        rw [he, FuzzySearch.collectExactGo_nil_pat] at hce
        cases hce
      have h1 : ∀ s ∈ spans1,
          FuzzySearch.SpanOk (FuzzySearch.normalizedHighlightText t o).length s :=
        FuzzySearch.collectExactGo_spec _ _ hq fuel 0 [] spans1 hce
          (by intro s hs; cases hs)
      have h2 : ∀ s ∈ spans2,
          FuzzySearch.SpanOk (FuzzySearch.normalizedHighlightText t o).length s :=
        FuzzySearch.wordsFold_spec _ fuel _ spans1 spans2 hwf h1
      have hmem : sp ∈ spans2 := (mem_sortPrec _ sp spans2).mp hsp
      obtain ⟨hlt, hle, hscore⟩ := h2 sp hmem
      refine ⟨hlt, hle, TextNormalizer.normalizedHighlightText_length_le t o, ?_, ?_⟩
      · rcases hscore with h' | h' <;> rw [h'] <;> norm_num
      · rcases hscore with h' | h' <;> rw [h'] <;> norm_num

/-- Witness for C5 at the concrete run
`generateHighlight 100 "ab" "zabz" {}` and its unique span `⟨1, 3, 1⟩`. -/
theorem C5_highlight_span_invariant_witness :
    (1 : Nat) < 3 ∧
      3 ≤ (FuzzySearch.normalizedHighlightText [0x7A, 0x61, 0x62, 0x7A] {}).length ∧
      (FuzzySearch.normalizedHighlightText [0x7A, 0x61, 0x62, 0x7A] {}).length ≤
        ([0x7A, 0x61, 0x62, 0x7A] : Str).length ∧
      (0 : ℚ) ≤ 1 ∧ (1 : ℚ) ≤ 1 := by
  have h := C5_highlight_span_invariant 100 [0x61, 0x62] [0x7A, 0x61, 0x62, 0x7A] {}
    ⟨[0x7A, 0x61, 0x62, 0x7A], [⟨1, 3, 1⟩]⟩ (by with_unfolding_all decide)
    ⟨1, 3, 1⟩ (by simp)
  exact h

/-- Counterexample for C5 as stated: for query "machine" and text
"a␣␣machine" (double space), the unique returned span is `[2, 9)` with
score 1.0, but the original text's slice `[2, 9)` is " machin", which is
not the query occurrence — the occurrence in the original text is at
`[3, 10)`.  The offsets address `normalizeForPartialMatch(text)` (where the
whitespace run has collapsed), not the original text. -/
theorem C5_highlight_span_counterexample :
    FuzzySearch.generateHighlight 100
        [0x6D, 0x61, 0x63, 0x68, 0x69, 0x6E, 0x65]
        [0x61, 0x20, 0x20, 0x6D, 0x61, 0x63, 0x68, 0x69, 0x6E, 0x65] {} =
      some ⟨[0x61, 0x20, 0x20, 0x6D, 0x61, 0x63, 0x68, 0x69, 0x6E, 0x65],
        [⟨2, 9, 1⟩]⟩ ∧
    (([0x61, 0x20, 0x20, 0x6D, 0x61, 0x63, 0x68, 0x69, 0x6E, 0x65] : Str).drop 2).take 7 ≠
      [0x6D, 0x61, 0x63, 0x68, 0x69, 0x6E, 0x65] ∧
    TextNormalizer.normalizeForPartialMatch
        ((([0x61, 0x20, 0x20, 0x6D, 0x61, 0x63, 0x68, 0x69, 0x6E, 0x65] : Str).drop 2).take 7) ≠
      TextNormalizer.normalizeForPartialMatch [0x6D, 0x61, 0x63, 0x68, 0x69, 0x6E, 0x65] ∧
    (([0x61, 0x20, 0x20, 0x6D, 0x61, 0x63, 0x68, 0x69, 0x6E, 0x65] : Str).drop 3).take 7 =
      [0x6D, 0x61, 0x63, 0x68, 0x69, 0x6E, 0x65] := by
  refine ⟨by with_unfolding_all decide, by decide, by decide, by decide⟩

namespace SearchEngine
theorem searchMemoGo_some (fuel : Nat) (q : Str) (o : InnerOptions) :
    ∀ (fields : List (FieldName × Str × ℚ)) (acc acc' : MemoAcc),
      searchMemoGo fuel q o fields acc = some acc' →
      ∃ l, fieldEvalsGo fuel q o fields = some l ∧
        acc'.totalScore = acc.totalScore + (weightedScores l).sum ∧
        acc'.maxScore = (weightedScores l).foldl max acc.maxScore ∧
        acc'.matchedFields = acc.matchedFields ++
          ((l.filter fun e => e.2.2.matched).map fun e => e.1) := by
  intro fields
  induction fields with
  | nil =>
      intro acc acc' h
      simp only [searchMemoGo] at h
      cases h
      exact ⟨[], rfl, by simp [weightedScores], by simp [weightedScores], by simp⟩
  | cons f rest ih =>
      obtain ⟨name, value, weight⟩ := f
      intro acc acc' h
      simp only [searchMemoGo] at h
      by_cases hv : value = []
      · rw [if_pos hv] at h
        obtain ⟨l, hl, h1, h2, h3⟩ := ih acc acc' h
        exact ⟨l, by simp only [fieldEvalsGo, if_pos hv]; exact hl, h1, h2, h3⟩
      · rw [if_neg hv] at h
        split at h
        · cases h
        · rename_i fr hsf
          by_cases hm : fr.matched = true
          · rw [if_pos hm] at h
            obtain ⟨l, hl, h1, h2, h3⟩ := ih _ acc' h
            refine ⟨(name, weight, fr) :: l, ?_, ?_, ?_, ?_⟩
            · simp [fieldEvalsGo, hv, hsf, hl]
            · rw [h1]
              simp only [weightedScores, List.filter_cons, hm, if_true,
                List.map_cons, List.sum_cons]
              ring
            · rw [h2]
              simp only [weightedScores, List.filter_cons, hm, if_true,
                List.map_cons, List.foldl_cons]
            · rw [h3]
              simp only [List.filter_cons, hm, if_true, List.map_cons]
              simp
          · have hmf : fr.matched = false := by simpa using hm
            rw [hmf] at h
            simp only [Bool.false_eq_true, if_false] at h
            obtain ⟨l, hl, h1, h2, h3⟩ := ih acc acc' h
            refine ⟨(name, weight, fr) :: l, ?_, ?_, ?_, ?_⟩
            · simp [fieldEvalsGo, hv, hsf, hl]
            · rw [h1]
              simp only [weightedScores, List.filter_cons, hmf]
              simp
            · rw [h2]
              simp only [weightedScores, List.filter_cons, hmf]
              simp
            · rw [h3]
              simp only [List.filter_cons, hmf]
              simp

theorem enhancedCollect_entry (fuel : Nat) (nq : Str) (o : InnerOptions) :
    ∀ (memos : List Memo) (lst : List SearchResultEntry),
      enhancedCollect fuel nq o memos = some lst →
      ∀ e ∈ lst, ∃ r, searchMemo fuel e.memo nq o = some r ∧
        r.matched = true ∧ e.rankScore = r.score := by
  intro memos
  induction memos with
  | nil =>
      intro lst h e he
      simp only [enhancedCollect] at h
      cases h
      cases he
  | cons m0 rest ih =>
      intro lst h e he
      simp only [enhancedCollect] at h
      split at h
      · cases h
      · rename_i r0 hsm
        split at h
        · cases h
        · rename_i tail hec
          injection h with h
          subst h
          by_cases hmt : r0.matched = true
          · rw [if_pos hmt] at he
            rcases List.mem_cons.mp he with he0 | he'
            · subst he0
              exact ⟨r0, hsm, hmt, rfl⟩
            · exact ih tail hec e he'
          · have : r0.matched = false := by simpa using hmt
            rw [this] at he
            simp only [Bool.false_eq_true, if_false] at he
            exact ih tail hec e he

theorem enhancedCollect_mem (fuel : Nat) (nq : Str) (o : InnerOptions) :
    ∀ (memos : List Memo) (lst : List SearchResultEntry) (m : Memo),
      enhancedCollect fuel nq o memos = some lst → m ∈ memos →
      (∃ r, searchMemo fuel m nq o = some r ∧ r.matched = true) →
      ∃ e ∈ lst, e.memo = m := by
  intro memos
  induction memos with
  | nil => intro lst m h hm; cases hm
  | cons m0 rest ih =>
      intro lst m h hm hex
      simp only [enhancedCollect] at h
      split at h
      · cases h
      · rename_i r0 hsm
        split at h
        · cases h
        · rename_i tail hec
          injection h with h
          subst h
          rcases List.mem_cons.mp hm with he | hm'
          · subst he
            obtain ⟨r, hr, hrt⟩ := hex
            rw [hsm] at hr
            injection hr with hr
            subst hr
            rw [if_pos hrt]
            exact ⟨⟨m, r0.score, r0.highlights, r0.fuzzyScore, r0.matchedFields⟩,
              List.mem_cons_self _ _, rfl⟩
          · obtain ⟨e, he, hem⟩ := ih tail m hec hm' hex
            by_cases hmt : r0.matched = true
            · rw [if_pos hmt]
              exact ⟨e, List.mem_cons_of_mem _ he, hem⟩
            · have : r0.matched = false := by simpa using hmt
              rw [this]
              simp only [Bool.false_eq_true, if_false]
              exact ⟨e, he, hem⟩

end SearchEngine

/-- C4: whenever `searchMemo` (the per-memo scoring step of
`enhancedTextSearch`, with weights content 1.0, tags 0.8, category 0.6,
summary 0.7, keywords 0.9) produces a result, its score is
`(sum of weighted matched field scores + max weighted matched field score) / 2`
in `hybrid` mode and the plain sum in every other mode; the memo is marked
matched iff at least one field matched, and it enters `enhancedTextSearch`'s
collected result list exactly when it is matched. -/
theorem C4_searchMemo_scoring (fuel : Nat) (m : SearchEngine.Memo) (q : Str)
    (o : SearchEngine.InnerOptions) (r : SearchEngine.MemoSearchResult)
    (hr : SearchEngine.searchMemo fuel m q o = some r) :
    (∃ l, SearchEngine.fieldEvalsGo fuel q o (SearchEngine.memoFields m) = some l ∧
      r.score = (if o.searchMode = SearchEngine.SearchMode.hybrid
        then ((SearchEngine.weightedScores l).sum +
          (SearchEngine.weightedScores l).foldl max 0) / 2
        else (SearchEngine.weightedScores l).sum) ∧
      (r.matched = true ↔ ∃ e ∈ l, e.2.2.matched = true)) ∧
    (∀ (memos : List SearchEngine.Memo) (lst : List SearchEngine.SearchResultEntry),
      SearchEngine.enhancedCollect fuel q o memos = some lst → m ∈ memos →
      ((∃ e ∈ lst, e.memo = m) ↔ r.matched = true)) := by
  constructor
  · simp only [SearchEngine.searchMemo] at hr
    split at hr
    · cases hr
    · rename_i acc hsg
      injection hr with hr
      subst hr
      obtain ⟨l, hl, h1, h2, h3⟩ :=
        SearchEngine.searchMemoGo_some fuel q o (SearchEngine.memoFields m) _ acc hsg
      refine ⟨l, hl, ?_, ?_⟩
      · simp only [h1, h2]
        simp
      · simp only [h3]
        simp only [List.nil_append, decide_eq_true_eq, ne_eq, List.map_eq_nil_iff,
          List.filter_eq_nil_iff]
        constructor
        · intro hne
          by_contra hno
          push_neg at hno
          exact hne fun e he => by
            have := hno e he
            simpa using this
        · intro ⟨e, he, hem⟩ hall
          exact (hall e he) (by simpa using hem)
  · intro memos lst hc hm
    constructor
    · intro ⟨e, he, hem⟩
      obtain ⟨r', hr', hrt, _⟩ := SearchEngine.enhancedCollect_entry fuel q o memos lst hc e he
      rw [hem] at hr'
      rw [hr] at hr'
      injection hr' with hr'
      subst hr'
      exact hrt
    · intro hmt
      exact SearchEngine.enhancedCollect_mem fuel q o memos lst m hc hm ⟨r, hr, hmt⟩

/-- Witness for C4: memo with content "ab", query "ab", hybrid mode. -/
theorem C4_searchMemo_scoring_witness :
    (∃ l, SearchEngine.fieldEvalsGo 100 [0x61, 0x62]
        ⟨true, false, 7 / 10, SearchEngine.SearchMode.hybrid, false⟩
        (SearchEngine.memoFields ⟨1, [0x61, 0x62], [], none, none, [], none⟩) = some l ∧
      (1 : ℚ) = (if SearchEngine.SearchMode.hybrid = SearchEngine.SearchMode.hybrid
        then ((SearchEngine.weightedScores l).sum +
          (SearchEngine.weightedScores l).foldl max 0) / 2
        else (SearchEngine.weightedScores l).sum) ∧
      (true = true ↔ ∃ e ∈ l, e.2.2.matched = true)) := by
  have h := C4_searchMemo_scoring 100 ⟨1, [0x61, 0x62], [], none, none, [], none⟩
    [0x61, 0x62] ⟨true, false, 7 / 10, SearchEngine.SearchMode.hybrid, false⟩
    ⟨true, 1, [], 1, [SearchEngine.FieldName.content]⟩ (by with_unfolding_all decide)
  exact h.1

namespace SearchEngine
theorem searchTagsGo_fst (q : Str) (p f : Bool) (th : ℚ) :
    ∀ (tags : List Str) (mt : List Str) (ts mf : ℚ),
      (searchTagsGo q p f th tags (mt, ts, mf)).1 =
        mt ++ tags.filter fun tag => tagMatched q tag p f th := by
  intro tags
  induction tags with
  | nil => intro mt ts mf; simp [searchTagsGo]
  | cons tag rest ih =>
      intro mt ts mf
      simp only [searchTagsGo]
      by_cases h1 : TextNormalizer.normalizeForSearch tag = q
      · rw [if_pos h1, ih]
        have hm : tagMatched q tag p f th = true := by
          simp [tagMatched, h1]
        simp [List.filter_cons, hm]
      · rw [if_neg h1]
        by_cases h2 : p = true ∧ strIncludes (TextNormalizer.normalizeForSearch tag) q = true
        · rw [if_pos h2, ih]
          have hm : tagMatched q tag p f th = true := by
            simp [tagMatched, h2.1, h2.2]
          simp [List.filter_cons, hm]
        · rw [if_neg h2]
          by_cases h3 : f = true
          · rw [if_pos h3]
            by_cases h4 : (FuzzySearch.fmatch q (TextNormalizer.normalizeForSearch tag)
                { threshold := some th, normalizeText := some false }).matched = true
            · rw [if_pos h4, ih]
              have hm : tagMatched q tag p f th = true := by
                simp [tagMatched, h3, h4]
              simp [List.filter_cons, hm]
            · rw [if_neg h4, ih]
              have hm : tagMatched q tag p f th = false := by
                simp only [tagMatched]
                rw [Bool.or_eq_false_iff, Bool.or_eq_false_iff]
                refine ⟨⟨by simpa using h1, ?_⟩, ?_⟩
                · rw [Bool.and_eq_false_iff]
                  rcases Decidable.not_and_iff_or_not.mp h2 with h | h
                  · exact Or.inl (by simpa using h)
                  · exact Or.inr (by simpa using h)
                · rw [Bool.and_eq_false_iff]
                  exact Or.inr (by simpa using h4)
              simp [List.filter_cons, hm]
          · rw [if_neg h3, ih]
            have hm : tagMatched q tag p f th = false := by
              simp only [tagMatched]
              rw [Bool.or_eq_false_iff, Bool.or_eq_false_iff]
              refine ⟨⟨by simpa using h1, ?_⟩, ?_⟩
              · rw [Bool.and_eq_false_iff]
                rcases Decidable.not_and_iff_or_not.mp h2 with h | h
                · exact Or.inl (by simpa using h)
                · exact Or.inr (by simpa using h)
              · rw [Bool.and_eq_false_iff]
                exact Or.inl (by simpa using h3)
            simp [List.filter_cons, hm]

/-- The `all` and `any` modes of `searchTags` are the same function. -/
theorem searchTags_all_any (tags : List Str) (q : Str) (p f : Bool) (th : ℚ) :
    searchTags tags q TagMode.all p f th = searchTags tags q TagMode.any p f th := rfl

theorem tagCollect_all_any (nq : Str) (p f : Bool) (th : ℚ) :
    ∀ memos : List Memo,
      tagCollect nq TagMode.all p f th memos = tagCollect nq TagMode.any p f th memos := by
  intro memos
  induction memos with
  | nil => rfl
  | cons m rest ih =>
      simp only [tagCollect, searchTags_all_any, ih]

theorem tagCollect_entry (nq : Str) (mode : TagMode) (p f : Bool) (th : ℚ) :
    ∀ (memos : List Memo) (e : SearchResultEntry),
      e ∈ tagCollect nq mode p f th memos →
      e.memo.tags ≠ [] ∧ (searchTags e.memo.tags nq mode p f th).matched = true ∧
        e.rankScore = (searchTags e.memo.tags nq mode p f th).score := by
  intro memos
  induction memos with
  | nil => intro e he; cases he
  | cons m rest ih =>
      intro e he
      simp only [tagCollect] at he
      by_cases ht : m.tags = []
      · rw [if_pos ht] at he
        exact ih e he
      · rw [if_neg ht] at he
        by_cases hm : (searchTags m.tags nq mode p f th).matched = true
        · rw [if_pos hm] at he
          rcases List.mem_cons.mp he with he0 | he'
          · subst he0
            exact ⟨ht, hm, rfl⟩
          · exact ih e he'
        · have : (searchTags m.tags nq mode p f th).matched = false := by simpa using hm
          rw [this] at he
          simp only [Bool.false_eq_true, if_false] at he
          exact ih e he

theorem tagCollect_mem (nq : Str) (mode : TagMode) (p f : Bool) (th : ℚ) :
    ∀ (memos : List Memo) (m : Memo), m ∈ memos → m.tags ≠ [] →
      (searchTags m.tags nq mode p f th).matched = true →
      ∃ e ∈ tagCollect nq mode p f th memos, e.memo = m := by
  intro memos
  induction memos with
  | nil => intro m hm; cases hm
  | cons m0 rest ih =>
      intro m hm ht hmt
      simp only [tagCollect]
      rcases List.mem_cons.mp hm with he | hm'
      · subst he
        rw [if_neg ht, if_pos hmt]
        exact ⟨⟨m, (searchTags m.tags nq mode p f th).score, [],
          (searchTags m.tags nq mode p f th).fuzzyScore, [FieldName.tags]⟩,
          List.mem_cons_self _ _, rfl⟩
      · obtain ⟨e, he, hem⟩ := ih m hm' ht hmt
        by_cases ht0 : m0.tags = []
        · rw [if_pos ht0]
          exact ⟨e, he, hem⟩
        · rw [if_neg ht0]
          by_cases hm0 : (searchTags m0.tags nq mode p f th).matched = true
          · rw [if_pos hm0]
            exact ⟨e, List.mem_cons_of_mem _ he, hem⟩
          · have : (searchTags m0.tags nq mode p f th).matched = false := by simpa using hm0
            rw [this]
            simp only [Bool.false_eq_true, if_false]
            exact ⟨e, he, hem⟩

/-- In `any` (and hence `all`) mode, `searchTags` matches iff some tag
passes the per-tag cascade. -/
theorem searchTags_any_matched (tags : List Str) (q : Str) (p f : Bool) (th : ℚ) :
    (searchTags tags q TagMode.any p f th).matched = true ↔
      ∃ tag ∈ tags, tagMatched q tag p f th = true := by
  simp only [searchTags]
  rw [show (searchTagsGo q p f th tags ([], 0, 0)).1 =
    [] ++ tags.filter (fun tag => tagMatched q tag p f th) from
    searchTagsGo_fst q p f th tags [] 0 0]
  simp only [List.nil_append, decide_eq_true_eq]
  constructor
  · intro h
    obtain ⟨tag, htag⟩ := List.exists_mem_of_length_pos h
    have hf := List.mem_filter.mp htag
    exact ⟨tag, hf.1, by simpa using hf.2⟩
  · intro ⟨tag, htag, hmt⟩
    exact List.length_pos.mpr fun he => by
      rw [List.eq_nil_iff_forall_not_mem] at he
      exact he tag (List.mem_filter.mpr ⟨htag, hmt⟩)

end SearchEngine

/-- C8: `enhancedTagSearch` with mode `all` returns exactly the same result
list (same memos, same scores, same order) as with mode `any` — the `all`
case of `searchTags` performs the same "at least one tag matched" test as
`any` — and, for a non-blank query, both include a memo iff at least one of
its tags passes the per-tag match cascade against the normalized query. -/
theorem C8_tag_modes_all_any (memos : List SearchEngine.Memo) (q : Str)
    (pb fz : Option Bool) (th : Option ℚ) :
    (SearchEngine.enhancedTagSearch memos ⟨q, SearchEngine.TagMode.all, pb, fz, th⟩ =
      SearchEngine.enhancedTagSearch memos ⟨q, SearchEngine.TagMode.any, pb, fz, th⟩) ∧
    (∀ m ∈ memos, TextNormalizer.jsTrim q ≠ [] →
      ((∃ e ∈ SearchEngine.enhancedTagSearch memos
          ⟨q, SearchEngine.TagMode.all, pb, fz, th⟩, e.memo = m) ↔
        ∃ tag ∈ m.tags,
          SearchEngine.tagMatched (TextNormalizer.normalizeForSearch q) tag
            (pb.getD true) (fz.getD true) (th.getD (7 / 10)) = true)) := by
  constructor
  · simp only [SearchEngine.enhancedTagSearch]
    by_cases hq : TextNormalizer.jsTrim q = []
    · rw [if_pos hq, if_pos hq]
    · rw [if_neg hq, if_neg hq, SearchEngine.tagCollect_all_any]
  · intro m hm hq
    simp only [SearchEngine.enhancedTagSearch, if_neg hq]
    constructor
    · intro ⟨e, he, hem⟩
      have he' := (mem_sortPrec _ e _).mp he
      obtain ⟨_, hmt, _⟩ :=
        SearchEngine.tagCollect_entry _ _ _ _ _ memos e he'
      rw [hem] at hmt
      rw [SearchEngine.searchTags_all_any] at hmt
      exact (SearchEngine.searchTags_any_matched m.tags
        (TextNormalizer.normalizeForSearch q) (pb.getD true) (fz.getD true)
        (th.getD (7 / 10))).mp hmt
    · intro ⟨tag, htag, hmt⟩
      have ht : m.tags ≠ [] := by
        intro he
        rw [he] at htag
        cases htag
      have hmatched : (SearchEngine.searchTags m.tags
          (TextNormalizer.normalizeForSearch q) SearchEngine.TagMode.all
          (pb.getD true) (fz.getD true) (th.getD (7 / 10))).matched = true := by
        rw [SearchEngine.searchTags_all_any]
        exact (SearchEngine.searchTags_any_matched m.tags
          (TextNormalizer.normalizeForSearch q) (pb.getD true) (fz.getD true)
          (th.getD (7 / 10))).mpr ⟨tag, htag, hmt⟩
      obtain ⟨e, he, hem⟩ :=
        SearchEngine.tagCollect_mem _ _ _ _ _ memos m hm ht hmatched
      exact ⟨e, (mem_sortPrec _ e _).mpr he, hem⟩

/-- Witness for C8 at a concrete non-blank query and a one-memo list. -/
theorem C8_tag_modes_all_any_witness :
    (∃ e ∈ SearchEngine.enhancedTagSearch
        [⟨1, [], [[0x61]], none, none, [], none⟩]
        ⟨[0x61], SearchEngine.TagMode.all, none, none, none⟩,
      e.memo = ⟨1, [], [[0x61]], none, none, [], none⟩) ↔
      ∃ tag ∈ ([[0x61]] : List Str),
        SearchEngine.tagMatched (TextNormalizer.normalizeForSearch [0x61]) tag
          true true (7 / 10) = true := by
  have h := (C8_tag_modes_all_any [⟨1, [], [[0x61]], none, none, [], none⟩]
    [0x61] none none none).2 ⟨1, [], [[0x61]], none, none, [], none⟩
    (List.mem_cons_self _ _) (by decide)
  exact h

namespace TextNormalizer

theorem trimR_nil : ∀ t : Str, trimR t = [] → ∀ c ∈ t, jsWs c = true := by
  intro t
  induction t with
  | nil => intro _ c hc; cases hc
  | cons c0 r ih =>
      intro h c hc
      cases hrt : trimR r with
      | cons e r' =>
          have : trimR (c0 :: r) = c0 :: e :: r' := by simp [trimR, hrt]
          rw [this] at h
          cases h
      | nil =>
          have : trimR (c0 :: r) = if jsWs c0 = true then [] else [c0] := by
            simp [trimR, hrt]
          rw [this] at h
          by_cases hw : jsWs c0 = true
          · rcases List.mem_cons.mp hc with he | hm
            · subst he; exact hw
            · exact ih hrt c hm
          · rw [if_neg hw] at h
            cases h

theorem jsTrim_nil_all_ws {q : Str} (h : jsTrim q = []) :
    ∀ c ∈ q, jsWs c = true := by
  intro c hc
  unfold jsTrim trimL at h
  rw [← List.takeWhile_append_dropWhile (p := jsWs) (l := q)] at hc
  rcases List.mem_append.mp hc with h1 | h2
  · exact List.mem_takeWhile_imp h1
  · exact trimR_nil _ h c h2

end TextNormalizer

namespace SearchEngine

theorem tryFieldAt_ws {c : Nat} (r : Str) (hw : jsWs c = true) :
    tryFieldAt (c :: r) = none := by
  have h74 : ((0x74 : Nat) == c) = false := by
    simp only [beq_eq_false_iff_ne, ne_eq]
    intro he
    rw [← he] at hw
    simp [jsWs] at hw
  have h63 : ((0x63 : Nat) == c) = false := by
    simp only [beq_eq_false_iff_ne, ne_eq]
    intro he
    rw [← he] at hw
    simp [jsWs] at hw
  simp [tryFieldAt, tryFieldAux, fieldKeyword, List.isPrefixOf, h74, h63]

theorem fieldScanGo_ws : ∀ q : Str, (∀ c ∈ q, jsWs c = true) →
    fieldScanGo q = ([], q) := by
  intro q
  induction q with
  | nil => intro _; rw [fieldScanGo]
  | cons c r ih =>
      intro hall
      rw [fieldScanGo]
      rw [tryFieldAt_ws r (hall c (List.mem_cons_self c r))]
      rw [ih fun c' hc' => hall c' (List.mem_cons_of_mem _ hc')]

theorem parseComplexQuery_ws {q : Str} (h : TextNormalizer.jsTrim q = []) :
    parseComplexQuery q = ⟨[], [], [], [], []⟩ := by
  have hall : ∀ c ∈ q, jsWs c = true := TextNormalizer.jsTrim_nil_all_ws h
  have hfs : fieldScanGo q = ([], q) := fieldScanGo_ws q hall
  simp only [parseComplexQuery, hfs, h]
  with_unfolding_all decide

end SearchEngine

/-- C9: a query that is empty or whitespace-only makes each of the three
top-level entry points — `enhancedTextSearch`, `enhancedTagSearch` and
`complexSearch` — return the empty result list (not all records and not an
error), for every memo list and option record. -/
theorem C9_blank_query_empty_results (fuel : Nat)
    (memos : List SearchEngine.Memo) (q : Str) (o : SearchEngine.SearchOptions)
    (tmode : SearchEngine.TagMode) (pb fz : Option Bool) (th : Option ℚ)
    (h : TextNormalizer.jsTrim q = []) :
    SearchEngine.enhancedTextSearch fuel memos { o with query := q } = some [] ∧
    SearchEngine.enhancedTagSearch memos ⟨q, tmode, pb, fz, th⟩ = [] ∧
    SearchEngine.complexSearch fuel memos q o = some [] := by
  have h1 : SearchEngine.enhancedTextSearch fuel memos { o with query := q } = some [] := by
    simp [SearchEngine.enhancedTextSearch, h]
  refine ⟨h1, ?_, ?_⟩
  · simp [SearchEngine.enhancedTagSearch, h]
  · simp only [SearchEngine.complexSearch, SearchEngine.parseComplexQuery_ws h]
    rw [if_pos ⟨trivial, trivial⟩]
    exact h1

/-- Witness for C9 at a whitespace-only query and a one-memo list. -/
theorem C9_blank_query_empty_results_witness :
    SearchEngine.enhancedTextSearch 5 [⟨1, [0x61], [], none, none, [], none⟩]
        { query := [0x20] } = some [] ∧
    SearchEngine.enhancedTagSearch [⟨1, [0x61], [], none, none, [], none⟩]
        ⟨[0x20], SearchEngine.TagMode.any, none, none, none⟩ = [] ∧
    SearchEngine.complexSearch 5 [⟨1, [0x61], [], none, none, [], none⟩] [0x20]
        { query := [] } = some [] := by
  have h := C9_blank_query_empty_results 5 [⟨1, [0x61], [], none, none, [], none⟩]
    [0x20] { query := [] } SearchEngine.TagMode.any none none none (by decide)
  exact h

namespace SearchEngine
theorem evalFieldQueries_some (m : Memo) (o : SearchOptions) :
    ∀ (l : List (QueryField × Str)) (p : ℚ × Nat),
      evalFieldQueries m o l = some p →
      (∀ fq ∈ l, (evaluateFieldQuery m fq.1 fq.2 o).1 = true) ∧
      p.1 = (l.map fun fq => (evaluateFieldQuery m fq.1 fq.2 o).2).sum ∧
      p.2 = l.length := by
  intro l
  induction l with
  | nil =>
      intro p h
      simp only [evalFieldQueries] at h
      cases h
      exact ⟨fun fq hfq => absurd hfq (List.not_mem_nil fq), by simp, rfl⟩
  | cons fq rest ih =>
      intro p h
      simp only [evalFieldQueries] at h
      by_cases hr : (evaluateFieldQuery m fq.1 fq.2 o).1 = true
      · rw [if_pos hr] at h
        cases hrest : evalFieldQueries m o rest with
        | none => rw [hrest] at h; cases h
        | some p2 =>
            rw [hrest] at h
            injection h with h
            subst h
            obtain ⟨h1, h2, h3⟩ := ih p2 hrest
            refine ⟨?_, ?_, ?_⟩
            · intro fq2 hfq2
              rcases List.mem_cons.mp hfq2 with he | hmm
              · subst he; exact hr
              · exact h1 fq2 hmm
            · simp [h2]
            · simp [h3]
      · rw [if_neg hr] at h
        cases h

theorem evalFieldQueries_all (m : Memo) (o : SearchOptions) :
    ∀ l : List (QueryField × Str),
      (∀ fq ∈ l, (evaluateFieldQuery m fq.1 fq.2 o).1 = true) →
      evalFieldQueries m o l =
        some ((l.map fun fq => (evaluateFieldQuery m fq.1 fq.2 o).2).sum, l.length) := by
  intro l
  induction l with
  | nil => intro _; simp [evalFieldQueries]
  | cons fq rest ih =>
      intro hall
      simp only [evalFieldQueries]
      rw [if_pos (hall fq (List.mem_cons_self fq rest))]
      rw [ih fun fq2 h => hall fq2 (List.mem_cons_of_mem _ h)]
      simp [add_comm]

theorem evalTerms_eq_mts (fuel : Nat) (m : Memo) (o : SearchOptions) :
    ∀ terms : List Str,
      evalTerms fuel m o terms =
        (matchedTermScores fuel m o terms).map fun ts => (ts.sum, ts.length) := by
  intro terms
  induction terms with
  | nil => simp [evalTerms, matchedTermScores, termEvalsGo]
  | cons t rest ih =>
      cases hsm : searchMemo fuel m t (complexInnerOptions o) with
      | none => simp [evalTerms, matchedTermScores, termEvalsGo, hsm]
      | some r =>
          cases hrest : termEvalsGo fuel m o rest with
          | none =>
              have hmts : matchedTermScores fuel m o rest = none := by
                simp [matchedTermScores, hrest]
              have ih2 : evalTerms fuel m o rest = none := by
                rw [ih, hmts]; rfl
              simp [evalTerms, matchedTermScores, termEvalsGo, hsm, hrest, ih2]
          | some rs =>
              have hmts : matchedTermScores fuel m o rest =
                  some ((rs.filter fun r => r.matched).map fun r => r.score) := by
                simp [matchedTermScores, hrest]
              have ih2 : evalTerms fuel m o rest =
                  some (((rs.filter fun r => r.matched).map fun r => r.score).sum,
                    ((rs.filter fun r => r.matched).map fun r => r.score).length) := by
                rw [ih, hmts]; rfl
              by_cases hmt : r.matched = true
              · simp [evalTerms, matchedTermScores, termEvalsGo, hsm, hrest, ih2,
                  hmt, List.filter_cons]
              · have hmf : r.matched = false := by simpa using hmt
                simp [evalTerms, matchedTermScores, termEvalsGo, hsm, hrest, ih2,
                  hmf, List.filter_cons]

theorem mts_nil (fuel : Nat) (m : Memo) (o : SearchOptions) :
    matchedTermScores fuel m o [] = some [] := by
  simp [matchedTermScores, termEvalsGo]

/-- Full characterization of `complexSearch`'s per-memo evaluation: it
accepts the memo exactly when every field clause matches and the number of
field clauses plus matched free terms is positive, and then the entry's
rank score is the mean of the matched clause/term scores. -/
theorem complexMemoEval_some_iff (fuel : Nat) (pq : ParsedQuery)
    (o : SearchOptions) (m : Memo) (e : SearchResultEntry) :
    complexMemoEval fuel pq o m = some (some e) ↔
      ((∀ fq ∈ pq.fieldQueries, (evaluateFieldQuery m fq.1 fq.2 o).1 = true) ∧
        ∃ ts, matchedTermScores fuel m o pq.terms = some ts ∧
          0 < pq.fieldQueries.length + ts.length ∧
          e = ⟨m, ((pq.fieldQueries.map fun fq =>
              (evaluateFieldQuery m fq.1 fq.2 o).2).sum + ts.sum) /
            ((pq.fieldQueries.length + ts.length : Nat) : ℚ), [], 0,
            [FieldName.content]⟩) := by
  constructor
  · intro h
    simp only [complexMemoEval] at h
    split at h
    · injection h with h
      cases h
    · rename_i fp hfq
      obtain ⟨hall, hsum, hlen⟩ := evalFieldQueries_some m o pq.fieldQueries fp hfq
      by_cases hts : pq.terms ≠ []
      · rw [if_pos hts] at h
        split at h
        · cases h
        · rename_i tp het
          rw [evalTerms_eq_mts] at het
          cases hmts : matchedTermScores fuel m o pq.terms with
          | none => rw [hmts] at het; cases het
          | some ts =>
              rw [hmts] at het
              have htp : (ts.sum, ts.length) = tp := Option.some.inj het
              have htp1 : tp.1 = ts.sum := by rw [← htp]
              have htp2 : tp.2 = ts.length := by rw [← htp]
              injection h with h
              rw [htp1, htp2, hsum, hlen] at h
              have hpos : 0 < pq.fieldQueries.length + ts.length := by
                by_contra hc
                rw [if_neg hc] at h
                cases h
              rw [if_pos hpos] at h
              exact ⟨hall, ts, rfl, hpos, (Option.some.inj h).symm⟩
      · have hnil : pq.terms = [] := not_ne_iff.mp hts
        rw [if_neg hts] at h
        injection h with h
        rw [hsum, hlen] at h
        have hpos : 0 < pq.fieldQueries.length := by
          by_contra hc
          rw [if_neg hc] at h
          cases h
        rw [if_pos hpos] at h
        refine ⟨hall, [], by rw [hnil, mts_nil], by simpa using hpos, ?_⟩
        have he := (Option.some.inj h).symm
        rw [he]
        simp
  · rintro ⟨hall, ts, hmts, hpos, he⟩
    by_cases hts : pq.terms ≠ []
    · simp [complexMemoEval, evalFieldQueries_all m o pq.fieldQueries hall,
        evalTerms_eq_mts, hmts, hts, hpos, he]
    · have hnil : pq.terms = [] := not_ne_iff.mp hts
      rw [hnil, mts_nil] at hmts
      have hts0 : ts = [] := (Option.some.inj hmts).symm
      subst hts0
      simp only [List.length_nil, Nat.add_zero] at hpos
      simp [complexMemoEval, evalFieldQueries_all m o pq.fieldQueries hall,
        hnil, hpos, he]

theorem complexCollect_entry (fuel : Nat) (pq : ParsedQuery) (o : SearchOptions) :
    ∀ (memos : List Memo) (lst : List SearchResultEntry),
      complexCollect fuel pq o memos = some lst →
      ∀ e ∈ lst, ∃ m ∈ memos, complexMemoEval fuel pq o m = some (some e) := by
  intro memos
  induction memos with
  | nil =>
      intro lst h e he
      simp only [complexCollect] at h
      cases h
      cases he
  | cons m0 rest ih =>
      intro lst h e he
      simp only [complexCollect] at h
      split at h
      · cases h
      · rename_i e? heval
        split at h
        · cases h
        · rename_i tail htail
          injection h with h
          subst h
          cases e? with
          | none =>
              simp only at he
              obtain ⟨m, hm, hme⟩ := ih tail htail e he
              exact ⟨m, List.mem_cons_of_mem _ hm, hme⟩
          | some e0 =>
              simp only at he
              rcases List.mem_cons.mp he with he0 | he'
              · subst he0
                exact ⟨m0, List.mem_cons_self _ _, heval⟩
              · obtain ⟨m, hm, hme⟩ := ih tail htail e he'
                exact ⟨m, List.mem_cons_of_mem _ hm, hme⟩

theorem complexCollect_mem (fuel : Nat) (pq : ParsedQuery) (o : SearchOptions) :
    ∀ (memos : List Memo) (lst : List SearchResultEntry) (m : Memo)
      (e : SearchResultEntry),
      complexCollect fuel pq o memos = some lst → m ∈ memos →
      complexMemoEval fuel pq o m = some (some e) → e ∈ lst := by
  intro memos
  induction memos with
  | nil => intro lst m e h hm; cases hm
  | cons m0 rest ih =>
      intro lst m e h hm heval
      simp only [complexCollect] at h
      split at h
      · cases h
      · rename_i e? heval0
        split at h
        · cases h
        · rename_i tail htail
          injection h with h
          subst h
          rcases List.mem_cons.mp hm with he | hm'
          · subst he
            rw [heval] at heval0
            injection heval0 with heval0
            subst heval0
            exact List.mem_cons_self _ _
          · have := ih tail m e htail hm' heval
            cases e? with
            | none => simpa using this
            | some e0 => exact List.mem_cons_of_mem _ this

/-- Entries produced by `complexMemoEval` carry the memo they were built
from. -/
theorem complexMemoEval_memo (fuel : Nat) (pq : ParsedQuery) (o : SearchOptions)
    (m : Memo) (e : SearchResultEntry)
    (h : complexMemoEval fuel pq o m = some (some e)) : e.memo = m := by
  rw [complexMemoEval_some_iff] at h
  obtain ⟨_, ts, _, _, he⟩ := h
  rw [he]

end SearchEngine

/-- C1: in `complexSearch`, when the parsed query has at least one operator
or field clause, a memo appears in the result list only if every field
clause matches it and the count of field clauses plus matched free terms is
positive (NOT "at least one free term matches": field clauses alone satisfy
the `matchCount > 0` test, see the counterexample); the entry's rank score
is the arithmetic mean of the scores of the field clauses and the free
terms that matched. -/
theorem C1_complexSearch_semantics (fuel : Nat) (memos : List SearchEngine.Memo)
    (query : Str) (o : SearchEngine.SearchOptions)
    (res : List SearchEngine.SearchResultEntry)
    (hpq : ¬((SearchEngine.parseComplexQuery query).operators = [] ∧
      (SearchEngine.parseComplexQuery query).fieldQueries = []))
    (hres : SearchEngine.complexSearch fuel memos query o = some res)
    (e : SearchEngine.SearchResultEntry) (he : e ∈ res) :
    e.memo ∈ memos ∧
    (∀ fq ∈ (SearchEngine.parseComplexQuery query).fieldQueries,
        (SearchEngine.evaluateFieldQuery e.memo fq.1 fq.2 o).1 = true) ∧
    ∃ ts, SearchEngine.matchedTermScores fuel e.memo o
        (SearchEngine.parseComplexQuery query).terms = some ts ∧
      0 < (SearchEngine.parseComplexQuery query).fieldQueries.length + ts.length ∧
      e.rankScore = (((SearchEngine.parseComplexQuery query).fieldQueries.map fun fq =>
          (SearchEngine.evaluateFieldQuery e.memo fq.1 fq.2 o).2).sum + ts.sum) /
        (((SearchEngine.parseComplexQuery query).fieldQueries.length +
          ts.length : Nat) : ℚ) := by
  simp only [SearchEngine.complexSearch] at hres
  rw [if_neg hpq] at hres
  split at hres
  · cases hres
  · rename_i results hc
    injection hres with hres
    subst hres
    rw [mem_sortPrec] at he
    obtain ⟨m, hm, hme⟩ := SearchEngine.complexCollect_entry fuel
      (SearchEngine.parseComplexQuery query) o memos results hc e he
    have hmm : e.memo = m := SearchEngine.complexMemoEval_memo fuel
      (SearchEngine.parseComplexQuery query) o m e hme
    rw [SearchEngine.complexMemoEval_some_iff] at hme
    obtain ⟨hall, ts, hmts, hpos, hee⟩ := hme
    have hrs : e.rankScore =
        (((SearchEngine.parseComplexQuery query).fieldQueries.map fun fq =>
          (SearchEngine.evaluateFieldQuery m fq.1 fq.2 o).2).sum + ts.sum) /
        (((SearchEngine.parseComplexQuery query).fieldQueries.length +
          ts.length : Nat) : ℚ) := by
      rw [hee]
    rw [← hmm] at hm hall hmts hrs
    exact ⟨hm, hall, ts, hmts, hpos, hrs⟩

/-- C1 counterexample to the spec as stated: for query "tag:ai xyzzy" and a
memo with tag "ai" but no occurrence of "xyzzy" anywhere, the parsed query
has one field clause and one free term, the free term does NOT match the
memo, and yet the memo appears in the `complexSearch` result (rank score 1,
from the field clause alone). -/
theorem C1_complexSearch_counterexample :
    (SearchEngine.parseComplexQuery c1Query).fieldQueries =
      [(SearchEngine.QueryField.tag, [0x61, 0x69])] ∧
    (SearchEngine.parseComplexQuery c1Query).terms =
      [[0x78, 0x79, 0x7A, 0x7A, 0x79]] ∧
    ((SearchEngine.searchMemo 100 c1Memo [0x78, 0x79, 0x7A, 0x7A, 0x79]
        (SearchEngine.complexInnerOptions c1Opts)).map fun r => r.matched) =
      some false ∧
    SearchEngine.complexSearch 100 [c1Memo] c1Query c1Opts = some [c1Entry] ∧
    c1Entry.memo = c1Memo := by
  with_unfolding_all decide

/-- Witness for C1 at the counterexample input. -/
theorem C1_complexSearch_semantics_witness :
    c1Entry.memo ∈ [c1Memo] ∧
    (∀ fq ∈ (SearchEngine.parseComplexQuery c1Query).fieldQueries,
        (SearchEngine.evaluateFieldQuery c1Entry.memo fq.1 fq.2 c1Opts).1 = true) ∧
    ∃ ts, SearchEngine.matchedTermScores 100 c1Entry.memo c1Opts
        (SearchEngine.parseComplexQuery c1Query).terms = some ts ∧
      0 < (SearchEngine.parseComplexQuery c1Query).fieldQueries.length + ts.length ∧
      c1Entry.rankScore =
        (((SearchEngine.parseComplexQuery c1Query).fieldQueries.map fun fq =>
          (SearchEngine.evaluateFieldQuery c1Entry.memo fq.1 fq.2 c1Opts).2).sum +
            ts.sum) /
        (((SearchEngine.parseComplexQuery c1Query).fieldQueries.length +
          ts.length : Nat) : ℚ) :=
  C1_complexSearch_semantics 100 [c1Memo] c1Query c1Opts [c1Entry]
    (by with_unfolding_all decide) (by with_unfolding_all decide) c1Entry
    (List.mem_singleton.mpr rfl)

